import Mathlib

/-!
Verification of the kicad_to_femm geometry/serialization pipeline.

Shallow embedding notes:
* Machine floats are modelled as exact rationals (`ℚ`); all source arithmetic
  on coordinates, margins and areas is translated literally over `ℚ`.
* Python's banker's rounding `round` is modelled by `pyRound`.
* Square roots never need to be computed: every comparison the source makes
  against a distance (`distance(...) < small_distance`, `segment_length < 1.0`)
  is carried out on squared quantities, which is equivalent because both sides
  are nonnegative. Comments mark each such spot.
* Shapely (general 2D polygon algebra) is the out-of-scope collaborator; where
  the source calls it we either parameterize over an abstract predicate
  (`within`) or use the exact closed form for the geometry at hand (circle
  buffers for the smd shrink iteration, with areas stored in units of `π`,
  which cancels from every formula the source evaluates).
-/

namespace KicadToFemm

/-- Python's `round` (banker's rounding, round-half-to-even) on an exact
rational, as used by `Point.__key__` in fec.py. -/
def pyRound (q : ℚ) : ℤ :=
  let f := ⌊q⌋
  let r := q - f
  if r < 1/2 then f
  else if 1/2 < r then f + 1
  else if f % 2 = 0 then f else f + 1

/-- `small_distance = 1e-3` from fec.py. -/
def smallDistance : ℚ := 1/1000

/-- A 2D point with exact rational coordinates. -/
abbrev QPt := ℚ × ℚ

/-! ## C1 — `ConductorSpec.match` (converter.py lines 694–717) -/

/-- The fields of a kicad pad item that `ConductorSpec.match` reads:
owning net name, absolute center, parent module reference (absent for vias,
whose `parent` access raises `AttributeError`), and pad number. -/
structure PadKItem where
  netName : String
  center : QPt
  parentRef : Option String
  number : String

/-- The fields of `ConductorSpec` that `match` reads: optional net-name filter
(empty string when unset), region filters `(xmin, ymin, xmax, ymax)`, and
module filters (component reference, pad-number list; an empty list means all
pads of that component match, mirroring `len(module_spec) == 1`). -/
structure ConductorSpecData where
  net_name : String
  regions : List (ℚ × ℚ × ℚ × ℚ)
  modules : List (String × List String)

/-- `shapely.geometry.box(*region_spec).contains(point)`: strict interior
containment in the axis-aligned rectangle. -/
def boxContains (r : ℚ × ℚ × ℚ × ℚ) (p : QPt) : Bool :=
  let (xmin, ymin, xmax, ymax) := r
  xmin < p.1 && p.1 < xmax && ymin < p.2 && p.2 < ymax

/-- `ConductorSpec.match` from converter.py: returns `False` when a net filter
is set and the pad's net differs; then returns `True` on the first region
containing the pad center; then returns `True` on a module filter whose
reference matches the pad's parent (the whole module loop is skipped when the
pad has no parent, mirroring the caught `AttributeError`); otherwise `False`. -/
def ConductorSpecData.matchPad (spec : ConductorSpecData) (pad : PadKItem) : Bool :=
  if spec.net_name ≠ "" && pad.netName ≠ spec.net_name then
    false
  else if spec.regions.any (fun r => boxContains r pad.center) then
    true
  else
    match pad.parentRef with
    | none => false
    | some ref =>
        spec.modules.any (fun m => m.1 = ref && (m.2.isEmpty || m.2.contains pad.number))

/-- A conductor spec carrying only a net-name filter, and a pad on that net. -/
def c1Spec : ConductorSpecData := ⟨"GND", [], []⟩

def c1Pad : PadKItem := ⟨"GND", (0, 0), none, "1"⟩

/-- C1 counterexample: a conductor spec with net filter `"GND"` and no region
or module filters does NOT match a pad whose net is `"GND"`: the match falls
through every filter and returns `False`, so net-name equality is not by
itself a sufficient matching condition. -/
theorem C1_net_only_spec_matches_nothing :
    c1Spec.net_name ≠ "" ∧ c1Pad.netName = c1Spec.net_name ∧
      c1Spec.matchPad c1Pad = false := by
  refine ⟨by decide, rfl, rfl⟩

/-- C1 (amended): `ConductorSpec.match` returns true iff the net filter
passes (no filter, or equal net names) AND some region filter contains the pad
center or some module filter matches; net name equality alone, with no region
and no module filters, is never sufficient. -/
theorem C1_matchPad_iff (spec : ConductorSpecData) (pad : PadKItem) :
    spec.matchPad pad = true ↔
      ((spec.net_name = "" ∨ pad.netName = spec.net_name) ∧
        ((∃ r ∈ spec.regions, boxContains r pad.center = true) ∨
          (∃ ref, pad.parentRef = some ref ∧ ∃ m ∈ spec.modules,
            m.1 = ref ∧ (m.2 = [] ∨ pad.number ∈ m.2)))) := by
  unfold ConductorSpecData.matchPad
  by_cases hnet : (spec.net_name ≠ "" && pad.netName ≠ spec.net_name : Bool) = true
  · rw [if_pos hnet]
    simp only [Bool.and_eq_true, ne_eq, decide_eq_true_eq] at hnet
    constructor
    · intro h; exact absurd h (by simp)
    · rintro ⟨hn | hn, -⟩
      · exact absurd hn hnet.1
      · exact absurd hn hnet.2
  · rw [if_neg hnet]
    have hnet' : spec.net_name = "" ∨ pad.netName = spec.net_name := by
      by_contra hc
      push_neg at hc
      exact hnet (by simp [hc.1, hc.2])
    by_cases hreg : (spec.regions.any fun r => boxContains r pad.center) = true
    · rw [if_pos hreg]
      simp only [List.any_eq_true] at hreg
      obtain ⟨r, hr, hb⟩ := hreg
      exact iff_of_true rfl ⟨hnet', Or.inl ⟨r, hr, hb⟩⟩
    · rw [if_neg hreg]
      simp only [List.any_eq_true, not_exists, not_and] at hreg
      cases hpar : pad.parentRef with
      | none =>
        constructor
        · intro h; exact absurd h (by simp)
        · rintro ⟨-, ⟨r, hr, hb⟩ | ⟨ref, href, -⟩⟩
          · exact absurd hb (by simpa using hreg r hr)
          · simp [hpar] at href
      | some ref =>
        simp only [List.any_eq_true, Bool.and_eq_true, Bool.or_eq_true,
          decide_eq_true_eq, List.isEmpty_iff]
        constructor
        · rintro ⟨m, hm, hmr, hrest⟩
          refine ⟨hnet', Or.inr ⟨ref, rfl, m, hm, hmr, ?_⟩⟩
          rcases hrest with h | h
          · exact Or.inl h
          · exact Or.inr (by simpa using h)
        · rintro ⟨-, ⟨r, hr, hb⟩ | ⟨ref', href, m, hm, hmr, hrest⟩⟩
          · exact absurd hb (by simpa using hreg r hr)
          · obtain rfl : ref' = ref := by simpa using href.symm
            refine ⟨m, hm, hmr, ?_⟩
            rcases hrest with h | h
            · exact Or.inl h
            · exact Or.inr (by simpa using h)

/-! ## C9 — exclusive conductor/boundary assignment (fec.py 327–367,
converter.py 89–108)

`Conductor` and `Boundary` entities are interned by name (`Multiton`), so the
source's object-identity test `value is not self._conductor` coincides with
name inequality; segments are modelled with the conductor/boundary name.
Python raises before mutating, so each setter is modelled as returning the
post-state together with an optional error message. -/

structure FSegment where
  p0 : QPt
  p1 : QPt
  conductor : Option String
  boundary : Option String
  mesh_size : ℚ
deriving DecidableEq

/-- `Segment.conductor` setter (fec.py 331–342): no-op when `value` is falsy
or identical to the current conductor; otherwise raises if a conductor is
already set, then raises if a boundary is set, else assigns. -/
def FSegment.setConductor (s : FSegment) (v : Option String) :
    FSegment × Option String :=
  match v with
  | none => (s, none)
  | some c =>
    if s.conductor = some c then (s, none)
    else
      match s.conductor with
      | some c0 =>
          (s, some ("Can't assign segment conductor <" ++ c ++
            ">, already has conductor <" ++ c0 ++ ">."))
      | none =>
        match s.boundary with
        | some b0 =>
            (s, some ("Can't assign segment conductor <" ++ c ++
              ">, already has boundary <" ++ b0 ++ ">."))
        | none => ({ s with conductor := some c }, none)

/-- `Segment.boundary` setter (fec.py 352–363): no-op when `value` is falsy or
identical to the current boundary; otherwise raises if a conductor is set,
then raises if a boundary is already set, else assigns. -/
def FSegment.setBoundary (s : FSegment) (v : Option String) :
    FSegment × Option String :=
  match v with
  | none => (s, none)
  | some b =>
    if s.boundary = some b then (s, none)
    else
      match s.conductor with
      | some c0 =>
          (s, some ("Can't assign segment boundary <" ++ b ++
            ">, already has conductor <" ++ c0 ++ ">."))
      | none =>
        match s.boundary with
        | some b0 =>
            (s, some ("Can't assign segment boundary <" ++ b ++
              ">, already has boundary <" ++ b0 ++ ">."))
        | none => ({ s with boundary := some b }, none)

/-- `PadBase.conductor_spec` setter (converter.py 93–108): assigns when unset,
raises otherwise (the spec is identified by its conductor name). -/
def padSetConductorSpec (current : Option String) (new : String) :
    Option String × Option String :=
  match current with
  | none => (some new, none)
  | some old =>
      (some old, some ("Pad conductor already set to <" ++ old ++
        ">. Cannot set to <" ++ new ++ ">."))

/-- C9: assigning a conductor to a segment holding a different conductor or
(under conductor/boundary exclusivity) any boundary errors; symmetrically for
boundaries; assigning a second conductor spec to a pad errors; in every
failing case the existing assignment is unchanged. -/
theorem C9_exclusive_assignment_errors (s : FSegment) (c c' b0 b' : String)
    (sp sp' : String) :
    (s.conductor = some c → c' ≠ c →
      (s.setConductor (some c')).2.isSome = true ∧ (s.setConductor (some c')).1 = s) ∧
    (s.conductor = none → s.boundary = some b0 →
      (s.setConductor (some c')).2.isSome = true ∧ (s.setConductor (some c')).1 = s) ∧
    (s.boundary = some b0 → b' ≠ b0 →
      (s.setBoundary (some b')).2.isSome = true ∧ (s.setBoundary (some b')).1 = s) ∧
    (s.boundary = none → s.conductor = some c →
      (s.setBoundary (some b')).2.isSome = true ∧ (s.setBoundary (some b')).1 = s) ∧
    ((padSetConductorSpec (some sp) sp').2.isSome = true ∧
      (padSetConductorSpec (some sp) sp').1 = some sp) := by
  refine ⟨?_, ?_, ?_, ?_, ?_, rfl⟩
  · intro hc hne
    have hne2 : c ≠ c' := fun h => hne h.symm
    simp [FSegment.setConductor, hc, hne2]
  · intro hc hb
    simp [FSegment.setConductor, hc, hb]
  · intro hb hne
    have hne2 : b0 ≠ b' := fun h => hne h.symm
    rcases hcond : s.conductor with _ | c0 <;>
      simp [FSegment.setBoundary, hb, hcond, hne2]
  · intro hb hc
    have hne' : ¬ s.boundary = some b' := by simp [hb]
    simp [FSegment.setBoundary, hne', hc]
  · simp [padSetConductorSpec]

/-- C9 witness: the theorem applied at concrete segments and pads. -/
theorem C9_exclusive_assignment_errors_witness :
    ((FSegment.mk (0, 0) (1, 0) (some "a") none (-1)).setConductor (some "c")).2.isSome = true ∧
    ((FSegment.mk (0, 0) (1, 0) (some "a") none (-1)).setConductor (some "c")).1 =
      FSegment.mk (0, 0) (1, 0) (some "a") none (-1) ∧
    ((FSegment.mk (0, 0) (1, 0) none (some "b") (-1)).setConductor (some "c")).2.isSome = true ∧
    ((FSegment.mk (0, 0) (1, 0) none (some "b") (-1)).setBoundary (some "d")).2.isSome = true ∧
    ((FSegment.mk (0, 0) (1, 0) (some "a") none (-1)).setBoundary (some "d")).2.isSome = true ∧
    (padSetConductorSpec (some "x") "y").2.isSome = true ∧
    (padSetConductorSpec (some "x") "y").1 = some "x" := by
  have h1 := C9_exclusive_assignment_errors
    (FSegment.mk (0, 0) (1, 0) (some "a") none (-1)) "a" "c" "b" "d" "x" "y"
  have h2 := C9_exclusive_assignment_errors
    (FSegment.mk (0, 0) (1, 0) none (some "b") (-1)) "a" "c" "b" "d" "x" "y"
  exact ⟨(h1.1 rfl (by decide)).1, (h1.1 rfl (by decide)).2,
    (h2.2.1 rfl rfl).1, (h2.2.2.1 rfl (by decide)).1,
    (h1.2.2.2.1 rfl rfl).1, h1.2.2.2.2.1, h1.2.2.2.2.2⟩

/-! ## C8 — Multiton interning (fec.py 120–138, 296–313)

`Multiton.__new__` keeps one instances table per class keyed by `__key__`;
re-construction with an existing key returns the stored instance and runs the
subclass's merge branch of `__init__` (for `Segment`:
`mesh_size = min(mesh_size, new)`).  Object identity is modelled by a unique
natural id assigned at first construction. -/

structure MtState (κ : Type) where
  nextId : ℕ
  entries : List (κ × ℕ × ℚ)

def mtLookup {κ : Type} [DecidableEq κ] (k : κ) : List (κ × ℕ × ℚ) → Option (ℕ × ℚ)
  | [] => none
  | e :: rest => if e.1 = k then some e.2 else mtLookup k rest

def mtUpdate {κ : Type} [DecidableEq κ] (k : κ) (m : ℚ) :
    List (κ × ℕ × ℚ) → List (κ × ℕ × ℚ)
  | [] => []
  | e :: rest => if e.1 = k then (e.1, e.2.1, m) :: rest else e :: mtUpdate k m rest

/-- One `Segment(...)` construction: look up the identity key in the instances
table; when present return the existing instance's id and merge the mesh size
with `min`; otherwise insert a fresh instance. -/
def mtConstruct {κ : Type} [DecidableEq κ] (k : κ) (mesh : ℚ) (st : MtState κ) :
    ℕ × MtState κ :=
  match mtLookup k st.entries with
  | some (i, m0) => (i, ⟨st.nextId, mtUpdate k (min m0 mesh) st.entries⟩)
  | none => (st.nextId, ⟨st.nextId + 1, st.entries ++ [(k, st.nextId, mesh)]⟩)

/-- Run a sequence of constructions from the empty instances table. -/
def mtRun {κ : Type} [DecidableEq κ] (ops : List (κ × ℚ)) : MtState κ :=
  ops.foldl (fun st op => (mtConstruct op.1 op.2 st).2) ⟨0, []⟩

/-- Sequential `min` merging of mesh sizes, starting from an optional current
value. -/
def combineMesh : Option ℚ → List ℚ → Option ℚ
  | o, [] => o
  | none, m :: ms => combineMesh (some m) ms
  | some m0, m :: ms => combineMesh (some (min m0 m)) ms

theorem mtUpdate_keys {κ : Type} [DecidableEq κ] (k : κ) (m : ℚ)
    (l : List (κ × ℕ × ℚ)) : (mtUpdate k m l).map Prod.fst = l.map Prod.fst := by
  induction l with
  | nil => rfl
  | cons e rest ih =>
      by_cases h : e.1 = k <;> simp [mtUpdate, h, ih]

theorem mtLookup_eq_none_iff {κ : Type} [DecidableEq κ] (k : κ)
    (l : List (κ × ℕ × ℚ)) : mtLookup k l = none ↔ k ∉ l.map Prod.fst := by
  induction l with
  | nil => simp [mtLookup]
  | cons e rest ih =>
      by_cases h : e.1 = k <;> simp [mtLookup, h, ih, eq_comm (a := k)]

theorem mtLookup_update_self {κ : Type} [DecidableEq κ] (k : κ) (m : ℚ)
    (l : List (κ × ℕ × ℚ)) (i : ℕ) (m0 : ℚ) (h : mtLookup k l = some (i, m0)) :
    mtLookup k (mtUpdate k m l) = some (i, m) := by
  induction l with
  | nil => simp [mtLookup] at h
  | cons e rest ih =>
      by_cases he : e.1 = k
      · simp [mtLookup, he] at h
        simp [mtUpdate, mtLookup, he, h]
      · simp [mtLookup, he] at h
        simp [mtUpdate, mtLookup, he, ih h]

theorem mtLookup_update_of_ne {κ : Type} [DecidableEq κ] (k k' : κ) (m : ℚ)
    (l : List (κ × ℕ × ℚ)) (h : k' ≠ k) :
    mtLookup k (mtUpdate k' m l) = mtLookup k l := by
  induction l with
  | nil => rfl
  | cons e rest ih =>
      by_cases he : e.1 = k'
      · have : ¬ e.1 = k := by rw [he]; exact h
        simp [mtUpdate, mtLookup, he, this, h]
      · by_cases hek : e.1 = k <;>
          simp [mtUpdate, mtLookup, he, hek, ih, h, Ne.symm h]

theorem mtLookup_append_single {κ : Type} [DecidableEq κ] (k : κ)
    (l : List (κ × ℕ × ℚ)) (e : κ × ℕ × ℚ) (h : mtLookup k l = none) :
    mtLookup k (l ++ [e]) = if e.1 = k then some e.2 else none := by
  induction l with
  | nil => simp [mtLookup]
  | cons f rest ih =>
      by_cases hf : f.1 = k
      · simp [mtLookup, hf] at h
      · simp [mtLookup, hf] at h ⊢
        exact ih h

theorem mtLookup_append_of_ne {κ : Type} [DecidableEq κ] (k : κ)
    (l : List (κ × ℕ × ℚ)) (e : κ × ℕ × ℚ) (h : e.1 ≠ k) :
    mtLookup k (l ++ [e]) = mtLookup k l := by
  induction l with
  | nil => simp [mtLookup, h]
  | cons f rest ih =>
      by_cases hf : f.1 = k <;> simp [mtLookup, hf, ih]

/-- Keys stay duplicate-free under any construction sequence. -/
theorem mtRunFrom_nodup {κ : Type} [DecidableEq κ] (ops : List (κ × ℚ))
    (st : MtState κ) (h : (st.entries.map Prod.fst).Nodup) :
    (((ops.foldl (fun st op => (mtConstruct op.1 op.2 st).2) st)).entries.map
      Prod.fst).Nodup := by
  induction ops generalizing st with
  | nil => exact h
  | cons op rest ih =>
      rw [List.foldl_cons]
      refine ih _ ?_
      rcases hl : mtLookup op.1 st.entries with _ | ⟨i, m0⟩
      · have hk : op.1 ∉ st.entries.map Prod.fst := (mtLookup_eq_none_iff _ _).mp hl
        unfold mtConstruct
        rw [hl]
        simp [List.nodup_append, h, hk]
      · unfold mtConstruct
        rw [hl]
        simpa [mtUpdate_keys] using h

theorem combineMesh_some (m0 : ℚ) (ms : List ℚ) :
    combineMesh (some m0) ms = some (ms.foldl min m0) := by
  induction ms generalizing m0 with
  | nil => rfl
  | cons m rest ih => simp [combineMesh, ih]

/-- The mesh recorded for a key after a construction sequence is the running
`min`-merge of the meshes supplied for that key, on top of what the starting
table already held. -/
theorem mtRunFrom_mesh {κ : Type} [DecidableEq κ] (ops : List (κ × ℚ))
    (st : MtState κ) (k : κ) :
    ((mtLookup k ((ops.foldl (fun st op => (mtConstruct op.1 op.2 st).2)
        st)).entries).map Prod.snd) =
      combineMesh ((mtLookup k st.entries).map Prod.snd)
        ((ops.filter (fun op => op.1 = k)).map Prod.snd) := by
  induction ops generalizing st with
  | nil => simp [combineMesh]
  | cons op rest ih =>
      by_cases hk : op.1 = k
      · subst hk
        rw [List.foldl_cons, ih]
        unfold mtConstruct
        rcases hl : mtLookup op.1 st.entries with _ | ⟨i, m0⟩
        · rw [show (mtLookup op.1 (st.entries ++ [(op.1, st.nextId, op.2)]))
              = some (st.nextId, op.2) by
            rw [mtLookup_append_single _ _ _ hl]; simp]
          simp [hl, combineMesh]
        · rw [mtLookup_update_self _ _ _ _ _ hl]
          simp [hl, combineMesh]
      · rw [List.foldl_cons, ih]
        unfold mtConstruct
        rcases hl : mtLookup op.1 st.entries with _ | ⟨i, m0⟩
        · rw [mtLookup_append_of_ne _ _ _ hk]
          simp [hk]
        · rw [mtLookup_update_of_ne _ _ _ _ hk]
          simp [hk]

/-- C8: (a) at most one live instance per identity key at all times; (b)
constructing an entity whose key matches a live instance returns that
instance's identity and adds no entry; (c) a repeatedly constructed Segment's
mesh size is the minimum of all mesh sizes ever supplied for its key. -/
theorem C8_multiton_interning (κ : Type) [DecidableEq κ] (ops : List (κ × ℚ))
    (k : κ) (st : MtState κ) (i : ℕ) (m0 m : ℚ) :
    ((mtRun ops).entries.map Prod.fst).Nodup ∧
    (mtLookup k st.entries = some (i, m0) →
      (mtConstruct k m st).1 = i ∧
      ((mtConstruct k m st).2.entries.map Prod.fst) = st.entries.map Prod.fst) ∧
    ((mtLookup k (mtRun ops).entries).map Prod.snd =
      match (ops.filter (fun op => op.1 = k)).map Prod.snd with
      | [] => none
      | m1 :: ms => some (ms.foldl min m1)) := by
  refine ⟨mtRunFrom_nodup ops ⟨0, []⟩ (by simp), ?_, ?_⟩
  · intro h
    unfold mtConstruct
    rw [h]
    exact ⟨rfl, mtUpdate_keys _ _ _⟩
  · unfold mtRun
    rw [mtRunFrom_mesh]
    rcases hf : (ops.filter (fun op => op.1 = k)).map Prod.snd with _ | ⟨m1, ms⟩ <;>
      rw [hf]
    · simp [mtLookup, combineMesh]
    · show combineMesh none (m1 :: ms) = some (ms.foldl min m1)
      rw [show combineMesh none (m1 :: ms) = combineMesh (some m1) ms from rfl,
        combineMesh_some]

/-- C8 witness: a concrete construction sequence over natural-number keys. -/
theorem C8_multiton_interning_witness :
    mtLookup 5 (MtState.mk 1 [(5, 0, 3)] : MtState ℕ).entries = some (0, 3) ∧
    (mtConstruct 5 1 (MtState.mk 1 [(5, 0, 3)] : MtState ℕ)).1 = 0 ∧
    ((mtLookup 5 (mtRun [(5, 3), (5, 1), (7, 2), (5, 2)]).entries).map
      Prod.snd = some 1) := by
  have h := C8_multiton_interning ℕ [(5, 3), (5, 1), (7, 2), (5, 2)] 5
    (MtState.mk 1 [(5, 0, 3)]) 0 3 1
  refine ⟨by decide, (h.2.1 (by decide)).1, ?_⟩
  rw [h.2.2]
  decide

/-! ## C7 — `_merge_close_points` (fec.py 424–445)

Each pass interns every live point into a fresh grid keyed under a new
half-cell offset; the first point encountered in a grid cell becomes the cell's
representative (`Multiton` first-wins), and every segment endpoint is replaced
by its representative.  Points and segments are modelled by value; the pass
iterates points in insertion order, which the model's lists preserve. -/

/-- `Point.__key__` under grid offset `off`:
`(round(x / small_distance + off_x), round(y / small_distance + off_y))`. -/
def ptKey (off : ℚ × ℚ) (p : QPt) : ℤ × ℤ :=
  (pyRound (p.1 / smallDistance + off.1), pyRound (p.2 / smallDistance + off.2))

/-- First-wins interning of a point list under grid offset `off`: the head of
each key-class (in list order) survives.  Recursion-friendly form used for
proofs; `passPoints` below is the table-driven form that mirrors the
`Multiton` instances dictionary and computes by structural recursion. -/
def passPointsRec (off : ℚ × ℚ) : List QPt → List QPt
  | [] => []
  | p :: rest =>
      p :: passPointsRec off (rest.filter (fun q => ptKey off q ≠ ptKey off p))
termination_by l => l.length
decreasing_by
  simpa [Nat.lt_succ_iff] using List.length_filter_le _ rest

/-- First-wins interning, carrying the set of grid keys already present in the
instances dictionary. -/
def passPointsAux (off : ℚ × ℚ) (seen : List (ℤ × ℤ)) : List QPt → List QPt
  | [] => []
  | p :: rest =>
      if ptKey off p ∈ seen then passPointsAux off seen rest
      else p :: passPointsAux off (ptKey off p :: seen) rest

def passPoints (off : ℚ × ℚ) (l : List QPt) : List QPt := passPointsAux off [] l

/-- The representative a point is replaced by: the first live point whose key
under `off` matches (`new_point[point]` in the source). -/
def repPt (off : ℚ × ℚ) (pts : List QPt) (p : QPt) : QPt :=
  match pts.find? (fun q => ptKey off q = ptKey off p) with
  | some q => q
  | none => p

structure MergeState where
  points : List QPt
  segs : List (QPt × QPt)
deriving DecidableEq

/-- One loop iteration of `_merge_close_points`: re-intern all points under
the new offset and replace every segment endpoint by its representative. -/
def mergePass (off : ℚ × ℚ) (st : MergeState) : MergeState :=
  ⟨passPoints off st.points,
   st.segs.map (fun s => (repPt off st.points s.1, repPt off st.points s.2))⟩

/-- The grid offsets looped over by `_merge_close_points`. -/
def gridOffsets : List (ℚ × ℚ) := [(0, 1/2), (1/2, 1/2), (1/2, 0)]

def mergeClosePoints (st : MergeState) : MergeState :=
  gridOffsets.foldl (fun st off => mergePass off st) st

/-- Well-formedness maintained by the pipeline: every segment endpoint is a
live (interned) point. -/
def MergeWf (st : MergeState) : Prop :=
  ∀ s ∈ st.segs, s.1 ∈ st.points ∧ s.2 ∈ st.points

def keyne (off : ℚ × ℚ) (a b : QPt) : Prop := ptKey off a ≠ ptKey off b

theorem passPointsRec_sublist (off : ℚ × ℚ) (l : List QPt) :
    (passPointsRec off l).Sublist l := by
  induction l using passPointsRec.induct off with
  | case1 => simp only [passPointsRec]; exact List.Sublist.refl _
  | case2 p rest ih =>
      rw [passPointsRec]
      exact (ih.trans (List.filter_sublist _)).cons_cons p

theorem passPointsRec_pairwise (off : ℚ × ℚ) (l : List QPt) :
    (passPointsRec off l).Pairwise (keyne off) := by
  induction l using passPointsRec.induct off with
  | case1 => simp only [passPointsRec]; exact List.Pairwise.nil
  | case2 p rest ih =>
      rw [passPointsRec]
      refine List.Pairwise.cons (fun b hb => ?_) ih
      have hb' := (passPointsRec_sublist off _).mem hb
      have h1 := List.of_mem_filter hb'
      simp only [ne_eq, decide_not, Bool.not_eq_true', decide_eq_false_iff_not,
        Decidable.not_not] at h1
      exact fun hc => h1 (hc.symm.trans rfl)

theorem passPointsRec_eq_self (off : ℚ × ℚ) (l : List QPt)
    (h : l.Pairwise (keyne off)) : passPointsRec off l = l := by
  induction l using passPointsRec.induct off with
  | case1 => simp only [passPointsRec]
  | case2 p rest ih =>
      rw [passPointsRec]
      have hall : rest.filter (fun q => ptKey off q ≠ ptKey off p) = rest := by
        refine List.filter_eq_self.mpr fun a ha => ?_
        have h1 := List.rel_of_pairwise_cons h ha
        have h2 : ptKey off a ≠ ptKey off p := fun hc => h1 hc.symm
        simpa using h2
      rw [hall] at ih ⊢
      rw [ih (h.of_cons)]

theorem find?_keyeq_filter (off : ℚ × ℚ) (p q : QPt) (rest : List QPt)
    (h : ptKey off q ≠ ptKey off p) :
    rest.find? (fun x => ptKey off x = ptKey off q) =
      (rest.filter (fun x => ptKey off x ≠ ptKey off p)).find?
        (fun x => ptKey off x = ptKey off q) := by
  induction rest with
  | nil => rfl
  | cons x xs ih =>
      by_cases hx : ptKey off x = ptKey off q
      · have hxp : ptKey off x ≠ ptKey off p := by rw [hx]; exact h
        rw [List.find?_cons_of_pos _ (by simpa using hx),
          List.filter_cons, if_pos (by simpa using hxp),
          List.find?_cons_of_pos _ (by simpa using hx)]
      · by_cases hxp : ptKey off x = ptKey off p
        · rw [List.find?_cons_of_neg _ (by simpa using hx),
            List.filter_cons, if_neg (by simp [hxp]), ih]
        · rw [List.find?_cons_of_neg _ (by simpa using hx),
            List.filter_cons, if_pos (by simpa using hxp),
            List.find?_cons_of_neg _ (by simpa using hx), ih]

theorem repPt_mem_passPointsRec (off : ℚ × ℚ) (l : List QPt) (q : QPt)
    (hq : q ∈ l) : repPt off l q ∈ passPointsRec off l := by
  induction l using passPointsRec.induct off with
  | case1 => cases hq
  | case2 p rest ih =>
      rw [passPointsRec]
      by_cases hk : ptKey off p = ptKey off q
      · rw [repPt, List.find?_cons_of_pos _ (by simpa using hk)]
        exact List.mem_cons_self _ _
      · have hq' : q ∈ rest := by
          rcases List.mem_cons.mp hq with rfl | hqr
          · exact absurd rfl hk
          · exact hqr
        have hqk : ptKey off q ≠ ptKey off p := fun hc => hk hc.symm
        have hqf : q ∈ rest.filter (fun x => ptKey off x ≠ ptKey off p) :=
          List.mem_filter.mpr ⟨hq', by simpa using hqk⟩
        have hrw : repPt off (p :: rest) q =
            repPt off (rest.filter (fun x => ptKey off x ≠ ptKey off p)) q := by
          rw [repPt, repPt, List.find?_cons_of_neg _ (by simpa using hk),
            find?_keyeq_filter off p q rest hqk]
        rw [hrw]
        exact List.mem_cons_of_mem _ (ih hqf)

theorem passPointsAux_eq (off : ℚ × ℚ) (seen : List (ℤ × ℤ)) (l : List QPt) :
    passPointsAux off seen l =
      passPointsRec off (l.filter (fun q => ptKey off q ∉ seen)) := by
  induction l generalizing seen with
  | nil => simp [passPointsAux, passPointsRec]
  | cons p rest ih =>
      by_cases hp : ptKey off p ∈ seen
      · rw [passPointsAux, if_pos hp, List.filter_cons, if_neg (by simpa using hp),
          ih]
      · rw [passPointsAux, if_neg hp, List.filter_cons, if_pos (by simpa using hp),
          passPointsRec, ih]
        rw [List.filter_filter]
        refine congrArg (fun t => p :: passPointsRec off t)
          (List.filter_congr fun q hq => ?_)
        by_cases h1 : ptKey off q = ptKey off p <;>
          by_cases h2 : ptKey off q ∈ seen <;> simp [h1, h2]

theorem passPoints_eq_rec (off : ℚ × ℚ) (l : List QPt) :
    passPoints off l = passPointsRec off l := by
  rw [passPoints, passPointsAux_eq]
  congr 1
  exact List.filter_eq_self.mpr fun a _ => by simp

theorem passPoints_sublist (off : ℚ × ℚ) (l : List QPt) :
    (passPoints off l).Sublist l := by
  rw [passPoints_eq_rec]; exact passPointsRec_sublist off l

theorem passPoints_pairwise (off : ℚ × ℚ) (l : List QPt) :
    (passPoints off l).Pairwise (keyne off) := by
  rw [passPoints_eq_rec]; exact passPointsRec_pairwise off l

theorem passPoints_eq_self (off : ℚ × ℚ) (l : List QPt)
    (h : l.Pairwise (keyne off)) : passPoints off l = l := by
  rw [passPoints_eq_rec]; exact passPointsRec_eq_self off l h

theorem repPt_mem_passPoints (off : ℚ × ℚ) (l : List QPt) (q : QPt)
    (hq : q ∈ l) : repPt off l q ∈ passPoints off l := by
  rw [passPoints_eq_rec]; exact repPt_mem_passPointsRec off l q hq

theorem repPt_self (off : ℚ × ℚ) (l : List QPt) (q : QPt)
    (h : l.Pairwise (keyne off)) (hq : q ∈ l) : repPt off l q = q := by
  induction l with
  | nil => cases hq
  | cons p rest ih =>
      rcases List.mem_cons.mp hq with rfl | hqr
      · rw [repPt, List.find?_cons_of_pos _ (by simp)]
      · have hk : ptKey off p ≠ ptKey off q := List.rel_of_pairwise_cons h hqr
        rw [repPt, List.find?_cons_of_neg _ (by simpa using hk)]
        rw [← repPt]
        exact ih h.of_cons hqr

theorem map_fix {α : Type} (f : α → α) (l : List α) (h : ∀ a ∈ l, f a = a) :
    l.map f = l := by
  induction l with
  | nil => rfl
  | cons a rest ih =>
      rw [List.map_cons, h a (List.mem_cons_self _ _),
        ih fun b hb => h b (List.mem_cons_of_mem _ hb)]

theorem mergePass_wf (off : ℚ × ℚ) (st : MergeState) (h : MergeWf st) :
    MergeWf (mergePass off st) := by
  rintro s hs
  simp only [mergePass, List.mem_map] at hs
  obtain ⟨t, ht, rfl⟩ := hs
  exact ⟨repPt_mem_passPoints off _ _ (h t ht).1,
    repPt_mem_passPoints off _ _ (h t ht).2⟩

theorem mergePass_id (off : ℚ × ℚ) (st : MergeState)
    (hpw : st.points.Pairwise (keyne off)) (h : MergeWf st) :
    mergePass off st = st := by
  have hp : passPoints off st.points = st.points := passPoints_eq_self off _ hpw
  have hs : st.segs.map
      (fun s => (repPt off st.points s.1, repPt off st.points s.2)) = st.segs := by
    refine map_fix _ _ fun a ha => ?_
    rw [repPt_self off _ _ hpw (h a ha).1, repPt_self off _ _ hpw (h a ha).2]
  cases st
  simp only [mergePass] at hp hs ⊢
  rw [hp, hs]

/-- C7: running `_merge_close_points` a second time on an already-merged state
changes nothing (point set and all segment endpoints are a fixed point). -/
theorem C7_merge_close_points_idempotent (st : MergeState) (h : MergeWf st) :
    mergeClosePoints (mergeClosePoints st) = mergeClosePoints st := by
  simp only [mergeClosePoints, gridOffsets, List.foldl_cons, List.foldl_nil]
  set o1 : ℚ × ℚ := (0, 1/2) with ho1
  set o2 : ℚ × ℚ := (1/2, 1/2) with ho2
  set o3 : ℚ × ℚ := (1/2, 0) with ho3
  set s1 := mergePass o1 st with hs1
  set s2 := mergePass o2 s1 with hs2
  set s3 := mergePass o3 s2 with hs3
  have hw1 : MergeWf s1 := mergePass_wf o1 st h
  have hw2 : MergeWf s2 := mergePass_wf o2 s1 hw1
  have hw3 : MergeWf s3 := mergePass_wf o3 s2 hw2
  have hsub32 : s3.points.Sublist s2.points := passPoints_sublist o3 _
  have hsub21 : s2.points.Sublist s1.points := passPoints_sublist o2 _
  have hpw3 : s3.points.Pairwise (keyne o3) := passPoints_pairwise o3 _
  have hpw2 : s3.points.Pairwise (keyne o2) :=
    (passPoints_pairwise o2 _).sublist hsub32
  have hpw1 : s3.points.Pairwise (keyne o1) :=
    (passPoints_pairwise o1 _).sublist (hsub32.trans hsub21)
  rw [mergePass_id o1 s3 hpw1 hw3, mergePass_id o2 s3 hpw2 hw3,
    mergePass_id o3 s3 hpw3 hw3]

/-- C7 witness: a concrete merged state (two points in one cell, one far away,
one segment) on which the theorem's hypotheses hold. -/
theorem C7_merge_close_points_idempotent_witness :
    MergeWf ⟨[(0, 0), (1/2000, 0), (5, 5)], [((0, 0), (5, 5))]⟩ ∧
      mergeClosePoints (mergeClosePoints
        ⟨[(0, 0), (1/2000, 0), (5, 5)], [((0, 0), (5, 5))]⟩) =
      mergeClosePoints ⟨[(0, 0), (1/2000, 0), (5, 5)], [((0, 0), (5, 5))]⟩ := by
  constructor
  · intro s hs
    simp only [List.mem_singleton] at hs
    subst hs
    exact ⟨by simp, by simp⟩
  · exact C7_merge_close_points_idempotent _ (by
      intro s hs
      simp only [List.mem_singleton] at hs
      subst hs
      exact ⟨by simp, by simp⟩)

/-! ## C6 — output determinism (fec.py 130–138, 508–583; converter.py 474–478)

`write_out` emits the point section by sorting `Point.instances` by
`__key__` (the grid-quantized coordinate, a lexicographically compared integer
pair) and writing each instance's exact `x, y`.  A `Point` instance is created
first-wins per grid cell, so the coordinates written for a cell are those of
the first point created in it.  `pointsOut` models the point section of the
output file as a function of the point-creation order. -/

/-- `Point.__key__` at creation time (grid offsets `(0, 0)`). -/
def cellKey (p : QPt) : ℤ × ℤ := ptKey (0, 0) p

/-- Python tuple comparison of point keys (lexicographic). -/
def keyLe (a b : QPt) : Prop :=
  (cellKey a).1 < (cellKey b).1 ∨
    ((cellKey a).1 = (cellKey b).1 ∧ (cellKey a).2 ≤ (cellKey b).2)

instance : DecidableRel keyLe := fun a b =>
  inferInstanceAs (Decidable ((cellKey a).1 < (cellKey b).1 ∨
    ((cellKey a).1 = (cellKey b).1 ∧ (cellKey a).2 ≤ (cellKey b).2)))

instance : IsTotal QPt keyLe := by
  constructor
  intro a b
  rcases lt_trichotomy (cellKey a).1 (cellKey b).1 with h | h | h
  · exact Or.inl (Or.inl h)
  · rcases le_total (cellKey a).2 (cellKey b).2 with h2 | h2
    · exact Or.inl (Or.inr ⟨h, h2⟩)
    · exact Or.inr (Or.inr ⟨h.symm, h2⟩)
  · exact Or.inr (Or.inl h)

instance : IsTrans QPt keyLe := by
  constructor
  rintro a b c (h | ⟨h, h2⟩) (g | ⟨g, g2⟩)
  · exact Or.inl (h.trans g)
  · exact Or.inl (g ▸ h)
  · exact Or.inl (h ▸ g)
  · exact Or.inr ⟨h.trans g, h2.trans g2⟩

/-- The point section of the output file: intern the creation sequence
first-wins by grid cell, then emit in stable sorted key order (each record
holding the instance's exact coordinates). -/
def pointsOut (l : List QPt) : List QPt :=
  List.insertionSort keyLe (passPoints (0, 0) l)

theorem keyLe_antisymm_key {a b : QPt} (h1 : keyLe a b) (h2 : keyLe b a) :
    cellKey a = cellKey b := by
  rcases h1 with h1 | ⟨h1, h1'⟩ <;> rcases h2 with h2 | ⟨h2, h2'⟩
  · exact absurd (h1.trans h2) (lt_irrefl _)
  · exact absurd h1 (h2 ▸ lt_irrefl _)
  · exact absurd h2 (h1 ▸ lt_irrefl _)
  · exact Prod.ext h1 (le_antisymm h1' h2')

/-- Two sorted lists of the same points with cell-injective coordinates are
equal. -/
theorem sorted_keyinj_eq (l₁ l₂ : List QPt) (hp : l₁.Perm l₂)
    (hs₁ : l₁.Sorted keyLe) (hs₂ : l₂.Sorted keyLe)
    (hinj : ∀ a ∈ l₁, ∀ b ∈ l₁, cellKey a = cellKey b → a = b) : l₁ = l₂ := by
  induction l₁ generalizing l₂ with
  | nil => exact (hp.nil_eq).symm ▸ rfl
  | cons a t₁ ih =>
      cases l₂ with
      | nil => exact absurd hp.symm (by simp)
      | cons b t₂ =>
          have hab : a = b := by
            have ha2 : a ∈ b :: t₂ := hp.mem_iff.mp (List.mem_cons_self _ _)
            have hb1 : b ∈ a :: t₁ := hp.symm.mem_iff.mp (List.mem_cons_self _ _)
            rcases List.mem_cons.mp ha2 with h | ha2'
            · exact h
            rcases List.mem_cons.mp hb1 with h | hb1'
            · exact h.symm
            have h1 : keyLe a b := List.rel_of_sorted_cons hs₁ _ hb1'
            have h2 : keyLe b a := List.rel_of_sorted_cons hs₂ _ ha2'
            exact hinj a (List.mem_cons_self _ _) b (List.mem_cons_of_mem _ hb1')
              (keyLe_antisymm_key h1 h2)
          subst hab
          have hp' : t₁.Perm t₂ := (List.perm_cons a).mp hp
          rw [ih t₂ hp' hs₁.of_cons hs₂.of_cons
            (fun x hx y hy hk => hinj x (List.mem_cons_of_mem _ hx)
              y (List.mem_cons_of_mem _ hy) hk)]

/-- Under cell-injectivity, interning keeps exactly the members. -/
theorem mem_passPointsRec_iff (off : ℚ × ℚ) (l : List QPt)
    (hinj : ∀ a ∈ l, ∀ b ∈ l, ptKey off a = ptKey off b → a = b) (x : QPt) :
    x ∈ passPointsRec off l ↔ x ∈ l := by
  constructor
  · exact fun h => (passPointsRec_sublist off l).mem h
  · intro hx
    induction l using passPointsRec.induct off with
    | case1 => cases hx
    | case2 p rest ih =>
        rw [passPointsRec]
        rcases List.mem_cons.mp hx with rfl | hx'
        · exact List.mem_cons_self _ _
        · by_cases hkey : ptKey off x = ptKey off p
          · have : x = p := hinj x (List.mem_cons_of_mem _ hx') p
              (List.mem_cons_self _ _) hkey
            rw [this]
            exact List.mem_cons_self _ _
          · refine List.mem_cons_of_mem _ (ih ?_ ?_)
            · intro a ha b hb hk
              exact hinj a (List.mem_cons_of_mem _ (List.mem_of_mem_filter ha))
                b (List.mem_cons_of_mem _ (List.mem_of_mem_filter hb)) hk
            · exact List.mem_filter.mpr ⟨hx', by simpa using hkey⟩

theorem mem_passPoints_iff (off : ℚ × ℚ) (l : List QPt)
    (hinj : ∀ a ∈ l, ∀ b ∈ l, ptKey off a = ptKey off b → a = b) (x : QPt) :
    x ∈ passPoints off l ↔ x ∈ l := by
  rw [passPoints_eq_rec]; exact mem_passPointsRec_iff off l hinj x

theorem passPoints_nodup (off : ℚ × ℚ) (l : List QPt) :
    (passPoints off l).Nodup :=
  (passPoints_pairwise off l).imp (fun h => by
    intro hc
    exact h (hc ▸ rfl))

unseal Rat.add Rat.mul Rat.sub Rat.inv in
/-- C6 counterexample: two runs that create the same two points in opposite
orders (both points quantize into grid cell `(0, 0)`) emit different point
records — the output coordinate is whichever point was created first. -/
theorem C6_point_section_depends_on_creation_order :
    List.Perm
        [((1 : ℚ)/10000, (0 : ℚ)), ((1 : ℚ)/5000, (0 : ℚ))]
        [((1 : ℚ)/5000, (0 : ℚ)), ((1 : ℚ)/10000, (0 : ℚ))] ∧
      pointsOut [((1 : ℚ)/10000, (0 : ℚ)), ((1 : ℚ)/5000, (0 : ℚ))] ≠
        pointsOut [((1 : ℚ)/5000, (0 : ℚ)), ((1 : ℚ)/10000, (0 : ℚ))] := by
  constructor
  · decide
  · decide

/-- C6 (amended): the point section is independent of the creation order
whenever the grid-cell key is injective on the points created (no two distinct
coordinates share a quantization cell); sorting by key then makes the emitted
section a function of the point set alone. -/
theorem C6_pointsOut_order_independent (l l' : List QPt) (hp : l.Perm l')
    (hinj : ∀ a ∈ l, ∀ b ∈ l, cellKey a = cellKey b → a = b) :
    pointsOut l = pointsOut l' := by
  have hinj' : ∀ a ∈ l', ∀ b ∈ l', cellKey a = cellKey b → a = b := by
    intro a ha b hb
    exact hinj a (hp.symm.mem_iff.mp ha) b (hp.symm.mem_iff.mp hb)
  have hmem : ∀ x, x ∈ passPoints (0, 0) l ↔ x ∈ passPoints (0, 0) l' := by
    intro x
    rw [mem_passPoints_iff (0, 0) l hinj, mem_passPoints_iff (0, 0) l' hinj']
    exact hp.mem_iff
  have hperm : (passPoints (0, 0) l).Perm (passPoints (0, 0) l') := by
    rw [List.perm_ext_iff_of_nodup (passPoints_nodup _ _) (passPoints_nodup _ _)]
    exact hmem
  refine sorted_keyinj_eq _ _ ?_ ?_ ?_ ?_
  · exact (List.perm_insertionSort keyLe _).trans
      (hperm.trans (List.perm_insertionSort keyLe _).symm)
  · exact List.sorted_insertionSort keyLe _
  · exact List.sorted_insertionSort keyLe _
  · intro a ha b hb
    have ha' : a ∈ l := (passPoints_sublist _ _).mem
      ((List.perm_insertionSort keyLe _).mem_iff.mp ha)
    have hb' : b ∈ l := (passPoints_sublist _ _).mem
      ((List.perm_insertionSort keyLe _).mem_iff.mp hb)
    exact hinj a ha' b hb'

unseal Rat.add Rat.mul Rat.sub Rat.inv in
/-- C6 witness: the amended theorem applied to a concrete cell-injective
point set under two creation orders. -/
theorem C6_pointsOut_order_independent_witness :
    List.Perm [((0 : ℚ), (0 : ℚ)), ((5 : ℚ), (5 : ℚ))]
        [((5 : ℚ), (5 : ℚ)), ((0 : ℚ), (0 : ℚ))] ∧
      (∀ a ∈ [((0 : ℚ), (0 : ℚ)), ((5 : ℚ), (5 : ℚ))],
        ∀ b ∈ [((0 : ℚ), (0 : ℚ)), ((5 : ℚ), (5 : ℚ))],
          cellKey a = cellKey b → a = b) ∧
      pointsOut [((0 : ℚ), (0 : ℚ)), ((5 : ℚ), (5 : ℚ))] =
        pointsOut [((5 : ℚ), (5 : ℚ)), ((0 : ℚ), (0 : ℚ))] := by
  refine ⟨by decide, by decide, ?_⟩
  exact C6_pointsOut_order_independent _ _ (by decide) (by decide)

/-! ## C5 — `Via.generate_fec` / `Via.generate_unrolled_segments`
(converter.py 253–339; layout.py 86–103; converter.py 36–57)

The rolled conductor segments on the two layout layers are generated from the
same exterior ring placed by `Layout.place` (top: mirror across the x-axis;
bottom: point reflection plus translation by `Layout.bottom_x_off`).  Points
are modelled with their exact placed coordinates.  A mesh-size hint is either
automatic (`-1`, modelled `none`) or `length/2`; since the length is a square
root, the hint is represented by the squared segment length, which determines
it. -/

/-- `Layout.place` on the top layer: reflect over the x-axis. -/
def placeTop (p : QPt) : QPt := (p.1, -p.2)

/-- `Layout.place` on the bottom layer: reflect over the origin, translate
right by `Layout.bottom_x_off`. -/
def placeBottom (c : ℚ) (p : QPt) : QPt := (-p.1 + c, -p.2)

/-- Squared distance (the source compares `distance(p2, p3) < 1.0`; squaring
both sides is equivalent). -/
def distSq (p q : QPt) : ℚ := (p.1 - q.1)^2 + (p.2 - q.2)^2

def angleDot (p1 p2 p3 : QPt) : ℚ :=
  (p1.1 - p2.1) * (p3.1 - p2.1) + (p1.2 - p2.2) * (p3.2 - p2.2)

/-- `vertex_angle(p1, p2, p3) > 150`, decided exactly over ℚ: the source folds
the atan2 difference into the non-reflex angle θ ∈ [0°, 180°] between
`u = p1 − p2` and `v = p3 − p2`; θ > 150° iff cos θ < cos 150° = −√3/2 iff
`u·v < 0` and `4(u·v)² > 3|u|²|v|²`. -/
def vertexAngleGt150 (p1 p2 p3 : QPt) : Bool :=
  angleDot p1 p2 p3 < 0 &&
    4 * (angleDot p1 p2 p3)^2 > 3 * (distSq p1 p2 * distSq p3 p2)

/-- `calc_mesh_size` (converter.py 45–57): explicit size `length/2` (stored as
the squared length) for short near-straight segments, else automatic. -/
def calcMeshSize (p1 p2 p3 p4 : QPt) : Option ℚ :=
  if distSq p2 p3 < 1 ∧ vertexAngleGt150 p1 p2 p3 = true ∧
      vertexAngleGt150 p2 p3 p4 = true then
    some (distSq p2 p3)
  else none

structure CSeg where
  a : QPt
  b : QPt
  mesh : Option ℚ
deriving DecidableEq, Inhabited

/-- `PadBase.generate_conductor_segments` on a placed exterior ring
(`coords` is closed: last point equals the first).  Exactly the source's index
arithmetic: segment `i` joins `points[i]`, `points[i+1]` and its mesh size is
computed from `points[(i-1) % l], points[i], points[(i+1) % l],
points[(i+2) % l]` with `l = len(points) - 1`. -/
def generateConductorSegments (place : QPt → QPt) (coords : List QPt) :
    List CSeg :=
  let pts := coords.map place
  let l := pts.length - 1
  (List.range l).map (fun i =>
    { a := pts.getD i (0, 0),
      b := pts.getD (i + 1) (0, 0),
      mesh := calcMeshSize (pts.getD ((i + l - 1) % l) (0, 0)) (pts.getD i (0, 0))
        (pts.getD ((i + 1) % l) (0, 0)) (pts.getD ((i + 2) % l) (0, 0)) })

/-- A periodic boundary together with the mesh-size hints of the two segments
assigned to it. -/
structure BoundaryPair where
  name : String
  meshA : Option ℚ
  meshB : Option ℚ
deriving DecidableEq, Inhabited

structure ViaUnrolled where
  topPairs : List BoundaryPair
  bottomPairs : List BoundaryPair
  vert : BoundaryPair
deriving DecidableEq

structure ViaFec where
  rolled : List (List CSeg)
  unrolled : Option ViaUnrolled
deriving DecidableEq

/-- `Layout.place` dispatch on the layer name. -/
def layoutPlace (top : String) (botOff : ℚ) (layer : String) : QPt → QPt :=
  if layer = top then placeTop else placeBottom botOff

/-- The unrolled-output bookkeeping of `Via.generate_fec` as a function of the
two rolled per-layer segment lists: one top-pair boundary and one bottom-pair
boundary per rolled segment (the unrolled segment of each pair carries
`rolled_segments[i].mesh_size` with `rolled_segments = layer_segments[0]`),
plus one vertical boundary shared by the two automatic-mesh side segments. -/
def viaUnrolledOf (idx : ℕ) (rolled0 rolled1 : List CSeg) : ViaUnrolled :=
  { topPairs := (List.range rolled0.length).map (fun i =>
      ⟨"via_" ++ toString idx ++ "_s" ++ toString i ++ "_t",
        (rolled0.getD i default).mesh, (rolled0.getD i default).mesh⟩),
    bottomPairs := (List.range rolled0.length).map (fun i =>
      ⟨"via_" ++ toString idx ++ "_s" ++ toString i ++ "_b",
        (rolled1.getD i default).mesh, (rolled0.getD i default).mesh⟩),
    vert := ⟨"via_" ++ toString idx ++ "_vert", none, none⟩ }

/-- `Via.generate_fec`: rolled conductor segments for each of the via's
layers; the unrolled strip is emitted only when the layout has two layers and
the via spans exactly both (`len(Layout.layers) == 2 and set(self.layers) ==
set(Layout.layers)`). -/
def viaGenerateFec (layoutLayers viaLayers : List String) (botOff : ℚ)
    (idx : ℕ) (coords : List QPt) : ViaFec :=
  if layoutLayers.length == 2 &&
      viaLayers.all (fun lay => layoutLayers.contains lay) &&
      layoutLayers.all (fun lay => viaLayers.contains lay) then
    { rolled := viaLayers.map (fun lay => generateConductorSegments
        (layoutPlace (layoutLayers.getD 0 "") botOff lay) coords),
      unrolled := some (viaUnrolledOf idx
        ((viaLayers.map (fun lay => generateConductorSegments
          (layoutPlace (layoutLayers.getD 0 "") botOff lay) coords)).getD 0 [])
        ((viaLayers.map (fun lay => generateConductorSegments
          (layoutPlace (layoutLayers.getD 0 "") botOff lay) coords)).getD 1 [])) }
  else
    { rolled := viaLayers.map (fun lay => generateConductorSegments
        (layoutPlace (layoutLayers.getD 0 "") botOff lay) coords),
      unrolled := none }

theorem angleDot_placeTop (p1 p2 p3 : QPt) :
    angleDot (placeTop p1) (placeTop p2) (placeTop p3) = angleDot p1 p2 p3 := by
  simp only [angleDot, placeTop]
  ring

theorem angleDot_placeBottom (c : ℚ) (p1 p2 p3 : QPt) :
    angleDot (placeBottom c p1) (placeBottom c p2) (placeBottom c p3) =
      angleDot p1 p2 p3 := by
  simp only [angleDot, placeBottom]
  ring

theorem distSq_placeTop (p q : QPt) : distSq (placeTop p) (placeTop q) = distSq p q := by
  simp only [distSq, placeTop]
  ring

theorem distSq_placeBottom (c : ℚ) (p q : QPt) :
    distSq (placeBottom c p) (placeBottom c q) = distSq p q := by
  simp only [distSq, placeBottom]
  ring

theorem vertexAngleGt150_placeTop (p1 p2 p3 : QPt) :
    vertexAngleGt150 (placeTop p1) (placeTop p2) (placeTop p3) =
      vertexAngleGt150 p1 p2 p3 := by
  simp only [vertexAngleGt150, angleDot_placeTop, distSq_placeTop]

theorem vertexAngleGt150_placeBottom (c : ℚ) (p1 p2 p3 : QPt) :
    vertexAngleGt150 (placeBottom c p1) (placeBottom c p2) (placeBottom c p3) =
      vertexAngleGt150 p1 p2 p3 := by
  simp only [vertexAngleGt150, angleDot_placeBottom, distSq_placeBottom]

theorem calcMeshSize_placeTop (p1 p2 p3 p4 : QPt) :
    calcMeshSize (placeTop p1) (placeTop p2) (placeTop p3) (placeTop p4) =
      calcMeshSize p1 p2 p3 p4 := by
  simp only [calcMeshSize, vertexAngleGt150_placeTop, distSq_placeTop]

theorem calcMeshSize_placeBottom (c : ℚ) (p1 p2 p3 p4 : QPt) :
    calcMeshSize (placeBottom c p1) (placeBottom c p2) (placeBottom c p3)
      (placeBottom c p4) = calcMeshSize p1 p2 p3 p4 := by
  simp only [calcMeshSize, vertexAngleGt150_placeBottom, distSq_placeBottom]

theorem getD_map_lt {α β : Type} (f : α → β) (l : List α) (j : ℕ) (d : β)
    (d0 : α) (h : j < l.length) : (l.map f).getD j d = f (l.getD j d0) := by
  rw [List.getD_eq_getElem?_getD, List.getD_eq_getElem?_getD, List.getElem?_map]
  rw [List.getElem?_eq_getElem h]
  rfl

theorem getD_range_map {b : Type} (n : ℕ) (f : ℕ → b) (i : ℕ) (d : b)
    (h : i < n) : ((List.range n).map f).getD i d = f i := by
  rw [getD_map_lt f _ i d 0 (by simpa using h)]
  congr 1
  rw [List.getD_eq_getElem?_getD, List.getElem?_range h]
  rfl

theorem length_generateConductorSegments (place : QPt → QPt)
    (coords : List QPt) :
    (generateConductorSegments place coords).length = coords.length - 1 := by
  simp [generateConductorSegments]

/-- The mesh-size hints of the rolled segments are the same on both layers:
both placements are isometries of the same ring. -/
theorem generateConductorSegments_mesh_eq (place : QPt → QPt)
    (hinv : ∀ p1 p2 p3 p4 : QPt, calcMeshSize (place p1) (place p2) (place p3)
      (place p4) = calcMeshSize p1 p2 p3 p4)
    (coords : List QPt) (i : ℕ) (h : i < coords.length - 1) :
    ((generateConductorSegments place coords).getD i default).mesh =
      ((generateConductorSegments id coords).getD i default).mesh := by
  have hl : ∀ (g : QPt → QPt), (coords.map g).length = coords.length :=
    fun g => List.length_map _ _
  have hrange : ∀ (g : QPt → QPt) (j : ℕ), j < coords.length →
      ((coords.map g).getD j (0, 0)) = g (coords.getD j (0, 0)) := by
    intro g j hj
    exact getD_map_lt g coords j (0, 0) (0, 0) hj
  have hmod : ∀ k : ℕ, (k % (coords.length - 1)) < coords.length := by
    intro k
    have h1 : 0 < coords.length - 1 := by omega
    have h2 := Nat.mod_lt k h1
    omega
  have hi : i < coords.length := by omega
  unfold generateConductorSegments
  rw [getD_range_map _ _ i default (by simp only [hl]; exact h),
      getD_range_map _ _ i default (by simp only [hl]; exact h)]
  simp only [hl]
  rw [hrange place _ (hmod _), hrange place _ hi, hrange place _ (hmod _),
    hrange place _ (hmod _), hrange id _ (hmod _), hrange id _ hi,
    hrange id _ (hmod _), hrange id _ (hmod _)]
  rw [hinv]
  simp

theorem viaUnrolledOf_topPairs_length (idx : ℕ) (r0 r1 : List CSeg) :
    (viaUnrolledOf idx r0 r1).topPairs.length = r0.length := by
  simp [viaUnrolledOf]

theorem viaUnrolledOf_bottomPairs_length (idx : ℕ) (r0 r1 : List CSeg) :
    (viaUnrolledOf idx r0 r1).bottomPairs.length = r0.length := by
  simp [viaUnrolledOf]

theorem viaUnrolledOf_names (idx : ℕ) (r0 r1 : List CSeg) (i : ℕ)
    (h : i < r0.length) :
    ((viaUnrolledOf idx r0 r1).topPairs.getD i default).name =
      "via_" ++ toString idx ++ "_s" ++ toString i ++ "_t" ∧
    ((viaUnrolledOf idx r0 r1).bottomPairs.getD i default).name =
      "via_" ++ toString idx ++ "_s" ++ toString i ++ "_b" := by
  unfold viaUnrolledOf
  constructor <;> rw [getD_range_map _ _ _ _ h]

theorem viaUnrolledOf_top_mesh (idx : ℕ) (r0 r1 : List CSeg) :
    ∀ p ∈ (viaUnrolledOf idx r0 r1).topPairs, p.meshA = p.meshB := by
  intro p hp
  simp only [viaUnrolledOf, List.mem_map, List.mem_range] at hp
  obtain ⟨i, hi, rfl⟩ := hp
  rfl

theorem viaUnrolledOf_bottom_mesh (idx : ℕ) (r0 r1 : List CSeg)
    (h : ∀ i, i < r0.length →
      (r1.getD i default).mesh = (r0.getD i default).mesh) :
    ∀ p ∈ (viaUnrolledOf idx r0 r1).bottomPairs, p.meshA = p.meshB := by
  intro p hp
  simp only [viaUnrolledOf, List.mem_map, List.mem_range] at hp
  obtain ⟨i, hi, rfl⟩ := hp
  exact h i hi

/-- C5: a via spanning exactly the two configured layers produces, for a
rolled outline of `N` segments, `N` top-pair boundaries, `N` bottom-pair
boundaries and one vertical boundary, all named with the via's global index,
and the two segments sharing each boundary have equal mesh-size hints; a via
not spanning both layers produces no unrolled output, only rolled per-layer
conductor segments. -/
theorem C5_via_unrolling (top bottom : String) (botOff : ℚ) (idx : ℕ)
    (coords : List QPt) (viaLayers : List String) :
    (∃ u, (viaGenerateFec [top, bottom] [top, bottom] botOff idx coords).unrolled
        = some u ∧
      u.topPairs.length = coords.length - 1 ∧
      u.bottomPairs.length = coords.length - 1 ∧
      (∀ i, i < coords.length - 1 →
        (u.topPairs.getD i default).name =
          "via_" ++ toString idx ++ "_s" ++ toString i ++ "_t" ∧
        (u.bottomPairs.getD i default).name =
          "via_" ++ toString idx ++ "_s" ++ toString i ++ "_b") ∧
      u.vert.name = "via_" ++ toString idx ++ "_vert" ∧
      (∀ p ∈ u.topPairs, p.meshA = p.meshB) ∧
      (∀ p ∈ u.bottomPairs, p.meshA = p.meshB) ∧
      u.vert.meshA = u.vert.meshB) ∧
    ((viaLayers.all (fun lay => ([top, bottom] : List String).contains lay) &&
        ([top, bottom] : List String).all (fun lay => viaLayers.contains lay))
          = false →
      (viaGenerateFec [top, bottom] viaLayers botOff idx coords).unrolled = none ∧
      (viaGenerateFec [top, bottom] viaLayers botOff idx coords).rolled =
        viaLayers.map (fun lay => generateConductorSegments
          (layoutPlace top botOff lay) coords)) := by
  have hLtop : layoutPlace top botOff top = placeTop := by
    simp [layoutPlace]
  constructor
  · have hfec : viaGenerateFec [top, bottom] [top, bottom] botOff idx coords =
        { rolled := [generateConductorSegments (layoutPlace top botOff top) coords,
            generateConductorSegments (layoutPlace top botOff bottom) coords],
          unrolled := some (viaUnrolledOf idx
            (generateConductorSegments (layoutPlace top botOff top) coords)
            (generateConductorSegments (layoutPlace top botOff bottom) coords)) }
        := by
      rw [viaGenerateFec, if_pos (by simp)]
      simp only [List.map_cons, List.map_nil, List.getD_cons_zero,
        List.getD_cons_succ]
    have hr0len : (generateConductorSegments (layoutPlace top botOff top)
        coords).length = coords.length - 1 :=
      length_generateConductorSegments _ _
    have hmesh : ∀ i, i < (generateConductorSegments (layoutPlace top botOff top)
        coords).length →
        ((generateConductorSegments (layoutPlace top botOff bottom)
            coords).getD i default).mesh =
        ((generateConductorSegments (layoutPlace top botOff top)
            coords).getD i default).mesh := by
      intro i hi
      rw [hr0len] at hi
      by_cases hbt : bottom = top
      · rw [hbt]
      · have hLbot : layoutPlace top botOff bottom = placeBottom botOff := by
          simp [layoutPlace, hbt]
        rw [hLtop, hLbot,
          generateConductorSegments_mesh_eq (placeBottom botOff)
            (calcMeshSize_placeBottom botOff) coords i hi,
          generateConductorSegments_mesh_eq placeTop calcMeshSize_placeTop
            coords i hi]
    refine ⟨viaUnrolledOf idx
      (generateConductorSegments (layoutPlace top botOff top) coords)
      (generateConductorSegments (layoutPlace top botOff bottom) coords),
      by rw [hfec], ?_, ?_, ?_, rfl, ?_, ?_, rfl⟩
    · rw [viaUnrolledOf_topPairs_length, hr0len]
    · rw [viaUnrolledOf_bottomPairs_length, hr0len]
    · intro i hi
      exact viaUnrolledOf_names idx _ _ i (by rw [hr0len]; exact hi)
    · exact viaUnrolledOf_top_mesh idx _ _
    · exact viaUnrolledOf_bottom_mesh idx _ _ hmesh
  · intro hns
    have hc : (([top, bottom] : List String).length == 2 &&
        viaLayers.all (fun lay => ([top, bottom] : List String).contains lay) &&
        ([top, bottom] : List String).all (fun lay => viaLayers.contains lay))
          = false := by
      cases h1 : viaLayers.all (fun lay => ([top, bottom] : List String).contains lay) <;>
        cases h2 : ([top, bottom] : List String).all (fun lay => viaLayers.contains lay) <;>
          simp_all
    rw [viaGenerateFec, if_neg (by rw [hc]; exact Bool.false_ne_true)]
    refine ⟨rfl, ?_⟩
    simp

/-- C5 witness: a concrete square via ring spanning both layers, and a via on
only one layer. -/
theorem C5_via_unrolling_witness :
    (∃ u, (viaGenerateFec ["F.Cu", "B.Cu"] ["F.Cu", "B.Cu"] 20 0
        [(0, 0), (1, 0), (1, 1), (0, 1), (0, 0)]).unrolled = some u ∧
      u.topPairs.length = 4 ∧ u.bottomPairs.length = 4 ∧
      (∀ p ∈ u.topPairs, p.meshA = p.meshB) ∧
      (∀ p ∈ u.bottomPairs, p.meshA = p.meshB)) ∧
    (((["F.Cu"] : List String).all
        (fun lay => (["F.Cu", "B.Cu"] : List String).contains lay) &&
      (["F.Cu", "B.Cu"] : List String).all
        (fun lay => (["F.Cu"] : List String).contains lay)) = false ∧
      (viaGenerateFec ["F.Cu", "B.Cu"] ["F.Cu"] 20 0
        [(0, 0), (1, 0), (1, 1), (0, 1), (0, 0)]).unrolled = none) := by
  have h := C5_via_unrolling "F.Cu" "B.Cu" 20 0
    [(0, 0), (1, 0), (1, 1), (0, 1), (0, 0)] ["F.Cu"]
  obtain ⟨⟨u, hu, h1, h2, -, -, h5, h6, -⟩, h7⟩ := h
  exact ⟨⟨u, hu, by simpa using h1, by simpa using h2, h5, h6⟩,
    by decide, (h7 (by decide)).1⟩

/-! ## C4 — conductor-outline shrink (converter.py 156–170)

For a circular pad of radius `R`, shapely's mitred `buffer(margin)` of the
copper circle is the circle of radius `R + margin`; its area is `π(R+m)²` and
its perimeter `2π(R+m)`.  Every quantity the source computes — the initial
margin `-(A0 - r·A0)/P0`, the stop test `|1 - A_i/A_g| < 0.001` (a ratio of
areas) and the correction `(A_i - A_g)/P_i` — is homogeneous in `π`, so areas
and perimeters are stored divided by `π` and the iteration is exact over ℚ. -/

/-- `margin -= (polygon.area - goal_area) / polygon.length` for the circle,
in units of `π`: area `(R+m)²`, goal `r·R²`, perimeter `2(R+m)`. -/
def shrinkStep (R r m : ℚ) : ℚ := m - ((R + m)^2 - r * R^2) / (2 * (R + m))

/-- The early-stop test `abs(1 - polygon.area / goal_area) < 0.001`. -/
def shrinkClose (R r m : ℚ) : Bool := |1 - (R + m)^2 / (r * R^2)| < 1/1000

/-- The `for i in range(10)` loop: `fuel` counts the corrections still
available (9 after the first buffer).  The polygon kept by the source when the
loop exhausts is the one buffered at the tenth margin, whose stop test no
longer matters — so `fuel = 0` returns the margin unconditionally. -/
def shrinkMargin (R r : ℚ) : ℕ → ℚ → ℚ
  | 0, m => m
  | f + 1, m =>
      if shrinkClose R r m then m else shrinkMargin R r f (shrinkStep R r m)

/-- `margin = -(initial_area - goal_area) / self.copper_polygon.length` in
units of `π`. -/
def initialMargin (R r : ℚ) : ℚ := -(R^2 - r * R^2) / (2 * R)

def smdFinalMargin (R r : ℚ) : ℚ := shrinkMargin R r 9 (initialMargin R r)

/-- Final conductor area for the circular pad, in units of `π`. -/
def smdFinalArea (R r : ℚ) : ℚ := (R + smdFinalMargin R r)^2

/-- Area divided by goal area, the quantity the stop test watches. -/
def areaRatio (R r m : ℚ) : ℚ := (R + m)^2 / (r * R^2)

/-- The area-ratio recurrence induced by one correction step:
`t ↦ (t+1)²/(4t)` (Newton's iteration for `√` in ratio form). -/
def gstep (t : ℚ) : ℚ := (t + 1)^2 / (4 * t)

def gIter : ℕ → ℚ → ℚ
  | 0, t => t
  | n + 1, t => gIter n (gstep t)

theorem one_le_gstep (t : ℚ) (ht : 0 < t) : 1 ≤ gstep t := by
  rw [gstep, le_div_iff (by positivity)]
  nlinarith [sq_nonneg (t - 1)]

theorem gstep_mono (a b : ℚ) (ha : 1 ≤ a) (hab : a ≤ b) : gstep a ≤ gstep b := by
  have hb : (1 : ℚ) ≤ b := le_trans ha hab
  have h1 : (1 : ℚ) ≤ a * b := by nlinarith
  rw [gstep, gstep, div_le_div_iff (by linarith) (by linarith)]
  nlinarith [mul_nonneg (sub_nonneg.mpr hab) (sub_nonneg.mpr h1)]

theorem gstep_le_self (t : ℚ) (ht : 1 ≤ t) : gstep t ≤ t := by
  rw [gstep, div_le_iff (by positivity)]
  nlinarith [sq_nonneg (t - 1)]

theorem step_pos (R r m : ℚ) (hR : 0 < R) (hr : 0 < r) (hu : 0 < R + m) :
    0 < R + shrinkStep R r m := by
  have : R + shrinkStep R r m = ((R + m)^2 + r * R^2) / (2 * (R + m)) := by
    rw [shrinkStep]
    field_simp
    ring
  rw [this]
  positivity

theorem areaRatio_step (R r m : ℚ) (hR : R ≠ 0) (hr : r ≠ 0)
    (hu : R + m ≠ 0) :
    areaRatio R r (shrinkStep R r m) = gstep (areaRatio R r m) := by
  rw [areaRatio, areaRatio, gstep, shrinkStep]
  field_simp
  ring

unseal Rat.add Rat.mul Rat.sub Rat.inv in
/-- Concrete evaluation of the ratio-recurrence bound after the nine
available corrections, starting from the worst ratio `2501` allowed by
`r ≥ 10⁻⁴`. -/
theorem gIter9_2501_lt : gIter 9 (2501 : ℚ) < 1 + 1/1000 := by decide

/-- Loop invariant, upper bound: starting from area ratio in `[1, B]`, the
shrink loop either stops inside the `0.001` stop band or ends with ratio at
most the `fuel`-fold ratio recurrence applied to `B`; the ratio and the
buffered radius stay positive throughout. -/
theorem shrinkMargin_ratio_bound (R r : ℚ) (hR : 0 < R) (hr : 0 < r) :
    ∀ (fuel : ℕ) (m B : ℚ), 0 < R + m → 1 ≤ areaRatio R r m →
      areaRatio R r m ≤ B →
      (0 < R + shrinkMargin R r fuel m ∧
        1 ≤ areaRatio R r (shrinkMargin R r fuel m)) ∧
      (areaRatio R r (shrinkMargin R r fuel m) < 1 + 1/1000 ∨
        areaRatio R r (shrinkMargin R r fuel m) ≤ gIter fuel B) := by
  intro fuel
  induction fuel with
  | zero =>
      intro m B hu h1 hB
      exact ⟨⟨hu, h1⟩, Or.inr hB⟩
  | succ f ih =>
      intro m B hu h1 hB
      rw [shrinkMargin]
      by_cases hc : shrinkClose R r m = true
      · rw [if_pos hc]
        have hcl : |1 - areaRatio R r m| < 1/1000 := by
          simpa [shrinkClose, areaRatio] using hc
        refine ⟨⟨hu, h1⟩, Or.inl ?_⟩
        have := (abs_lt.mp hcl).1
        linarith
      · rw [if_neg hc]
        have hu' := step_pos R r m hR hr hu
        have ht' : areaRatio R r (shrinkStep R r m) = gstep (areaRatio R r m) :=
          areaRatio_step R r m (ne_of_gt hR) (ne_of_gt hr) (ne_of_gt hu)
        have h1' : 1 ≤ areaRatio R r (shrinkStep R r m) := by
          rw [ht']
          exact one_le_gstep _ (by linarith)
        have hB' : areaRatio R r (shrinkStep R r m) ≤ gstep B := by
          rw [ht']
          exact gstep_mono _ _ h1 hB
        have := ih (shrinkStep R r m) (gstep B) hu' h1' hB'
        simpa [gIter] using this

/-- C4 (amended): for a circular pad of radius `R > 0` and target ratio
`r ∈ [10⁻⁴, 1]`, the shrink starts from margin `-(A0 - r·A0)/P0` and its final
area is within 1% of the goal `r·π·R²` within the 10 allowed iterations
(areas in units of `π`). -/
theorem C4_smd_shrink_accuracy (R r : ℚ) (hR : 0 < R) (hr1 : 1/10000 ≤ r)
    (hr2 : r ≤ 1) :
    initialMargin R r = -(R^2 - r * R^2) / (2 * R) ∧
    |smdFinalArea R r / (r * R^2) - 1| < 1/100 := by
  refine ⟨rfl, ?_⟩
  have hr : 0 < r := lt_of_lt_of_le (by norm_num) hr1
  have hu0 : R + initialMargin R r = R * (1 + r) / 2 := by
    rw [initialMargin]
    field_simp
    ring
  have hu0pos : 0 < R + initialMargin R r := by
    rw [hu0]
    positivity
  have ht0 : areaRatio R r (initialMargin R r) = (1 + r)^2 / (4 * r) := by
    rw [areaRatio, hu0]
    field_simp
    ring
  have h1 : 1 ≤ areaRatio R r (initialMargin R r) := by
    rw [ht0, le_div_iff (by positivity)]
    nlinarith [sq_nonneg (1 - r)]
  have hB : areaRatio R r (initialMargin R r) ≤ 2501 := by
    rw [ht0, div_le_iff (by positivity)]
    nlinarith [mul_le_mul_of_nonneg_left hr2 (le_of_lt hr)]
  obtain ⟨⟨hup, h1f⟩, hcase⟩ :=
    shrinkMargin_ratio_bound R r hR hr 9 (initialMargin R r) 2501 hu0pos h1 hB
  have harea : smdFinalArea R r / (r * R^2) =
      areaRatio R r (smdFinalMargin R r) := rfl
  have hgsmall : gIter 9 (2501 : ℚ) < 1 + 1/1000 := gIter9_2501_lt
  have hfin : areaRatio R r (smdFinalMargin R r) < 1 + 1/1000 := by
    rw [smdFinalMargin]
    rcases hcase with h | h
    · exact h
    · exact lt_of_le_of_lt h hgsmall
  have h1fin : 1 ≤ areaRatio R r (smdFinalMargin R r) := by
    rw [smdFinalMargin]
    exact h1f
  rw [harea, abs_of_nonneg (by linarith)]
  linarith

unseal Rat.add Rat.mul Rat.sub Rat.inv in
/-- C4 witness: the default configuration `R = 1`, `r = 1/2` (the loop stops
after two corrections with area within 0.001 of the goal). -/
theorem C4_smd_shrink_accuracy_witness :
    (0 : ℚ) < 1 ∧ (1/10000 : ℚ) ≤ 1/2 ∧ (1/2 : ℚ) ≤ 1 ∧
      (initialMargin 1 (1/2) = -(1^2 - (1/2) * 1^2) / (2 * 1) ∧
        |smdFinalArea 1 (1/2) / ((1/2) * 1^2) - 1| < 1/100) := by
  exact ⟨by norm_num, by norm_num, by norm_num,
    C4_smd_shrink_accuracy 1 (1/2) (by norm_num) (by norm_num) (by norm_num)⟩

/-- Loop invariant, lower bound: as long as the lower bound iterates stay
above the stop band, the loop never breaks early and the final ratio
dominates the iterated bound. -/
theorem shrinkMargin_ratio_lower (R r : ℚ) (hR : 0 < R) (hr : 0 < r) :
    ∀ (fuel : ℕ) (m a : ℚ), 0 < R + m → 1 ≤ a → a ≤ areaRatio R r m →
      (∀ j, j ≤ fuel → 1 + 1/1000 ≤ gIter j a) →
      gIter fuel a ≤ areaRatio R r (shrinkMargin R r fuel m) := by
  intro fuel
  induction fuel with
  | zero =>
      intro m a hu ha hat hmin
      exact hat
  | succ f ih =>
      intro m a hu ha hat hmin
      rw [shrinkMargin]
      have hnc : ¬ shrinkClose R r m = true := by
        intro hc
        have hcl : |1 - areaRatio R r m| < 1/1000 := by
          simpa [shrinkClose, areaRatio] using hc
        have h1a := hmin 0 (Nat.zero_le _)
        simp only [gIter] at h1a
        have := (abs_lt.mp hcl).1
        linarith
      rw [if_neg hnc]
      have hu' := step_pos R r m hR hr hu
      have ht' : areaRatio R r (shrinkStep R r m) = gstep (areaRatio R r m) :=
        areaRatio_step R r m (ne_of_gt hR) (ne_of_gt hr) (ne_of_gt hu)
      have hga : 1 ≤ gstep a := one_le_gstep a (by linarith)
      have hgat : gstep a ≤ areaRatio R r (shrinkStep R r m) := by
        rw [ht']
        exact gstep_mono a _ ha hat
      have hmin' : ∀ j, j ≤ f → 1 + 1/1000 ≤ gIter j (gstep a) := by
        intro j hj
        have := hmin (j + 1) (by omega)
        simpa [gIter] using this
      have := ih (shrinkStep R r m) (gstep a) hu' hga hgat hmin'
      simpa [gIter] using this

unseal Rat.add Rat.mul Rat.sub Rat.inv in
theorem gIter_250000_above : (∀ j, j ≤ 9 → (1 + 1/1000 : ℚ) ≤ gIter j 250000) ∧
    (101/100 : ℚ) ≤ gIter 9 (250000 : ℚ) := by
  constructor
  · decide
  · decide

/-- C4 counterexample: at target ratio `r = 10⁻⁶` (allowed by the
`0 < ratio ≤ 1` validation) the ten iterations are not enough — the final
area of the unit-radius circular pad misses the goal area by far more
than 1%. -/
theorem C4_small_ratio_diverges :
    ¬ (|smdFinalArea 1 (1/1000000) / ((1/1000000) * 1^2) - 1| < 1/100) := by
  intro hcon
  have hr : (0 : ℚ) < 1/1000000 := by norm_num
  have hu0 : (0 : ℚ) < 1 + initialMargin 1 (1/1000000) := by
    rw [initialMargin]
    norm_num
  have hat : (250000 : ℚ) ≤ areaRatio 1 (1/1000000) (initialMargin 1 (1/1000000)) := by
    rw [areaRatio, initialMargin]
    norm_num
  have hlow := shrinkMargin_ratio_lower 1 (1/1000000) (by norm_num) hr 9
    (initialMargin 1 (1/1000000)) 250000 hu0 (by norm_num) hat
    gIter_250000_above.1
  have harea : smdFinalArea 1 (1/1000000) / ((1/1000000) * 1^2) =
      areaRatio 1 (1/1000000) (smdFinalMargin 1 (1/1000000)) := rfl
  rw [harea] at hcon
  have hup : areaRatio 1 (1/1000000) (smdFinalMargin 1 (1/1000000)) < 1 + 1/100 := by
    have := (abs_lt.mp hcon).2
    linarith
  rw [smdFinalMargin] at hup
  have := gIter_250000_above.2
  linarith

/-! ## C2 — `Converter.prune_blocks` (converter.py 605–643)

Blocks are indexed by `Fin nb`, vias by `Fin nv`; pads and vias expose the
fields the pruning pass reads (layer list and center).  Shapely's
point-in-polygon test `center.within(polygon)` is the out-of-scope collaborator
and is passed in as an abstract predicate `within`.  The source's worklist
(`unchecked_active_blocks`, popped in arbitrary set order) is modelled as a
list popped from the front. -/

structure BlockData (P : Type) where
  layer : String
  polygon : P

/-- The fields of pads and vias that `prune_blocks` reads. -/
structure PinData where
  layers : List String
  center : QPt

/-- `block.layer in pin.layers and pin.center.within(block.polygon)`. -/
def pinInBlock {P : Type} (within : QPt → P → Bool) (pin : PinData)
    (b : BlockData P) : Bool :=
  pin.layers.contains b.layer && within pin.center b.polygon

/-- All blocks linked to `b` through one via: `for via in block.vias: for
block in via.blocks`. -/
def linkTargets {nb nv : ℕ} (viaIn : Fin nv → Fin nb → Bool) (b : Fin nb) :
    Finset (Fin nb) :=
  Finset.univ.filter (fun b2 => ∃ v, viaIn v b = true ∧ viaIn v b2 = true)

/-- The `while unchecked_active_blocks` traversal: pop a block, add every
block sharing a via with it that is not yet active, and queue the newcomers. -/
def pruneLoop {nb nv : ℕ} (viaIn : Fin nv → Fin nb → Bool) :
    Finset (Fin nb) → List (Fin nb) → Finset (Fin nb)
  | active, [] => active
  | active, b :: rest =>
      pruneLoop viaIn (active ∪ (linkTargets viaIn b \ active))
        (rest ++ ((linkTargets viaIn b \ active).sort (· ≤ ·)))
termination_by active wl => (Fintype.card (Fin nb) - active.card) * 2 + wl.length
decreasing_by
  have hd : Disjoint (linkTargets viaIn b \ active) active := Finset.sdiff_disjoint
  have hcard : (active ∪ (linkTargets viaIn b \ active)).card =
      active.card + (linkTargets viaIn b \ active).card :=
    Finset.card_union_of_disjoint hd.symm
  have hle := Finset.card_le_univ (active ∪ (linkTargets viaIn b \ active))
  simp only [List.length_append, List.length_cons, Finset.length_sort]
  omega

/-- `Converter.prune_blocks`: seed with the blocks containing a
conductor-assigned pad, traverse, and keep the vias contained in retained
blocks. -/
def pruneBlocks {P : Type} {nb nv : ℕ} (within : QPt → P → Bool)
    (blocks : Fin nb → BlockData P) (pads : List PinData)
    (vias : Fin nv → PinData) : Finset (Fin nb) × Finset (Fin nv) :=
  (pruneLoop (fun v b => pinInBlock within (vias v) (blocks b))
      (Finset.univ.filter
        (fun b => pads.any (fun p => pinInBlock within p (blocks b))))
      ((Finset.univ.filter
        (fun b => pads.any (fun p => pinInBlock within p (blocks b)))).sort (· ≤ ·)),
   Finset.univ.filter (fun v =>
      ∃ b ∈ pruneLoop (fun v b => pinInBlock within (vias v) (blocks b))
          (Finset.univ.filter
            (fun b => pads.any (fun p => pinInBlock within p (blocks b))))
          ((Finset.univ.filter
            (fun b => pads.any (fun p => pinInBlock within p (blocks b)))).sort (· ≤ ·)),
        pinInBlock within (vias v) (blocks b) = true))

/-- Reachability closure over the block–via containment graph, from the seed
blocks. -/
inductive Reach {nb : ℕ} (seed : Fin nb → Prop)
    (link : Fin nb → Fin nb → Prop) : Fin nb → Prop
  | base (b : Fin nb) : seed b → Reach seed link b
  | step (b b2 : Fin nb) : Reach seed link b → link b b2 → Reach seed link b2

theorem pruneLoop_spec {nb nv : ℕ} (viaIn : Fin nv → Fin nb → Bool)
    (seed : Fin nb → Prop) (link : Fin nb → Fin nb → Prop)
    (hlink : ∀ b b2, link b b2 ↔ ∃ v, viaIn v b = true ∧ viaIn v b2 = true) :
    ∀ (active : Finset (Fin nb)) (wl : List (Fin nb)),
      (∀ b ∈ wl, b ∈ active) →
      (∀ b ∈ active, Reach seed link b) →
      (∀ b ∈ active, b ∉ wl → ∀ b2, link b b2 → b2 ∈ active) →
      (∀ b, seed b → b ∈ active) →
      ∀ b, b ∈ pruneLoop viaIn active wl ↔ Reach seed link b := by
  intro active wl
  induction active, wl using pruneLoop.induct viaIn with
  | case1 active =>
      intro hwl hsound hclosed hseed b
      rw [pruneLoop]
      constructor
      · exact hsound b
      · intro hr
        induction hr with
        | base b0 hb0 => exact hseed b0 hb0
        | step b0 b2 hr0 hl0 ih0 =>
            exact hclosed b0 ih0 (List.not_mem_nil b0) b2 hl0
  | case2 active b rest ih =>
      intro hwl hsound hclosed hseed b'
      rw [pruneLoop]
      have hbact : b ∈ active := hwl b (List.mem_cons_self _ _)
      refine ih ?_ ?_ ?_ ?_ b'
      · intro a ha
        rcases List.mem_append.mp ha with ha | ha
        · exact Finset.mem_union_left _ (hwl a (List.mem_cons_of_mem _ ha))
        · exact Finset.mem_union_right _ ((Finset.mem_sort _).mp ha)
      · intro a ha
        rcases Finset.mem_union.mp ha with ha | ha
        · exact hsound a ha
        · have := Finset.mem_sdiff.mp ha
          have hmem := Finset.mem_filter.mp this.1
          have hl : link b a := (hlink b a).mpr hmem.2
          exact Reach.step b a (hsound b hbact) hl
      · intro a ha hnotwl b2 hl
        rcases Finset.mem_union.mp ha with ha | ha
        · by_cases hab : a = b
          · subst hab
            by_cases hb2 : b2 ∈ active
            · exact Finset.mem_union_left _ hb2
            · refine Finset.mem_union_right _ (Finset.mem_sdiff.mpr ⟨?_, hb2⟩)
              exact Finset.mem_filter.mpr ⟨Finset.mem_univ _, (hlink a b2).mp hl⟩
          · have hna : a ∉ b :: rest := by
              intro hc
              rcases List.mem_cons.mp hc with hc | hc
              · exact hab hc
              · exact hnotwl (List.mem_append.mpr (Or.inl hc))
            exact Finset.mem_union_left _ (hclosed a ha hna b2 hl)
        · exact absurd (List.mem_append.mpr (Or.inr ((Finset.mem_sort _).mpr ha)))
            hnotwl
      · intro a ha
        exact Finset.mem_union_left _ (hseed a ha)

/-- C2: after `prune_blocks`, the retained block set is exactly the
reachability closure, over the block–via containment graph, of the blocks
containing a conductor-assigned pad, and the retained via set is exactly the
set of vias contained in some retained block. -/
theorem C2_prune_blocks_reachability {P : Type} (nb nv : ℕ)
    (within : QPt → P → Bool) (blocks : Fin nb → BlockData P)
    (pads : List PinData) (vias : Fin nv → PinData) :
    (∀ b : Fin nb, b ∈ (pruneBlocks within blocks pads vias).1 ↔
      Reach (fun b0 => ∃ p ∈ pads, pinInBlock within p (blocks b0) = true)
        (fun b0 b2 => ∃ v, pinInBlock within (vias v) (blocks b0) = true ∧
          pinInBlock within (vias v) (blocks b2) = true) b) ∧
    (∀ v : Fin nv, v ∈ (pruneBlocks within blocks pads vias).2 ↔
      ∃ b ∈ (pruneBlocks within blocks pads vias).1,
        pinInBlock within (vias v) (blocks b) = true) := by
  constructor
  · intro b
    refine pruneLoop_spec _ _ _ (fun b b2 => Iff.rfl) _ _ ?_ ?_ ?_ ?_ b
    · intro a ha
      exact (Finset.mem_sort _).mp ha
    · intro a ha
      have := Finset.mem_filter.mp ha
      refine Reach.base a ?_
      simpa [List.any_eq_true] using this.2
    · intro a ha hna b2 hl
      exact absurd ((Finset.mem_sort _).mpr ha) hna
    · intro a ha
      refine Finset.mem_filter.mpr ⟨Finset.mem_univ _, ?_⟩
      simpa [List.any_eq_true] using ha
  · intro v
    rw [pruneBlocks]
    simp only [Finset.mem_filter, Finset.mem_univ, true_and]

/-! ## C3, C10 — `_resolve_overlapping_segments` (fec.py 17–89, 448–497)

Segments reuse `FSegment` (endpoints, conductor, boundary, mesh size); after
the merge passes every live `Point` instance has a distinct quantized key, so
`Point.__eq__` coincides with coordinate equality and points are modelled by
their coordinates.  `distance(segment, point) < small_distance` is decided on
squared quantities (both sides nonnegative).  `math.floor`/`math.ceil` are
`qfloor`/`qceil` below.  The worklist (`segments_to_process`, appended at the
end and popped from the end) is a stack, modelled with its top at the front:
the source appends the first half then the second, so the second half is
pushed last and popped first. -/

/-- `math.floor` on an exact rational (`q.num / q.den` floors because the
denominator is positive; see `qfloor_eq`). -/
def qfloor (q : ℚ) : ℤ := q.num / (q.den : ℤ)

theorem qfloor_eq (q : ℚ) : qfloor q = ⌊q⌋ := Rat.floor_def.symm

/-- `math.ceil` via `⌈q⌉ = -⌊-q⌋`. -/
def qceil (q : ℚ) : ℤ := -(qfloor (-q))

theorem qceil_eq (q : ℚ) : qceil q = ⌈q⌉ := by
  rw [qceil, qfloor_eq, Int.floor_neg, neg_neg]

/-- The spatial-hash cell size of `_resolve_overlapping_segments`. -/
def gridSize : ℚ := 1/10

/-- The loop body of `bresenham`: starting column, current row and running
error; one cell per column, stepping the row when the error crosses 1. -/
def bresenhamAux (dErr : ℚ) (xs ys : ℤ) (flip : Bool) :
    ℕ → ℤ → ℤ → ℚ → List (ℤ × ℤ)
  | 0, _, _, _ => []
  | n + 1, x, y, error =>
      (if flip then (y * ys, x * xs) else (x * xs, y * ys)) ::
        (if error + dErr ≥ 1 then
          bresenhamAux dErr xs ys flip n (x + 1) (y + 1) (error + dErr - 1)
        else bresenhamAux dErr xs ys flip n (x + 1) y (error + dErr))

/-- `bresenham(segment, grid_size)` (fec.py 17–59): the grid boxes painted
along the segment.  `flip` records the axis swap (`flip_xy = -1`), the sign
branches mirror the source's `x0 = -x0 + 1` normalizations, and the emitted
cell is `[x*x_sign, y*y_sign][::flip_xy]`. -/
def bresenham (s : FSegment) (grid : ℚ) : List (ℤ × ℤ) :=
  let x0 := s.p0.1 / grid
  let y0 := s.p0.2 / grid
  let x1 := s.p1.1 / grid
  let y1 := s.p1.2 / grid
  let flip : Bool := !(|x1 - x0| > |y1 - y0|)
  let a0 := if flip then y0 else x0
  let b0 := if flip then x0 else y0
  let a1 := if flip then y1 else x1
  let b1 := if flip then x1 else y1
  let xs : ℤ := if a1 ≥ a0 then 1 else -1
  let a0s := if a1 ≥ a0 then a0 else -a0 + 1
  let a1s := if a1 ≥ a0 then a1 else -a1 + 1
  let ys : ℤ := if b1 ≥ b0 then 1 else -1
  let b0s := if b1 ≥ b0 then b0 else -b0 + 1
  let b1s := if b1 ≥ b0 then b1 else -b1 + 1
  let dErr := if a1s - a0s ≠ 0 then (b1s - b0s) / (a1s - a0s) else 0
  let yq := dErr * ((qfloor a0s : ℚ) + 1/2 - a0s) + b0s
  bresenhamAux dErr xs ys flip (qceil a1s - qfloor a0s).toNat (qfloor a0s)
    (qfloor yq) (yq - (qfloor yq : ℚ))

/-- `distance(segment, point) < small_distance`, decided on squares: the
perpendicular foot `F` when it falls inside the segment's bounding box, the
nearer endpoint otherwise (fec.py 62–89). -/
def segDistLtSmall (s : FSegment) (p : QPt) : Bool :=
  let x0 := p.1
  let y0 := p.2
  let x1 := s.p0.1
  let y1 := s.p0.2
  let x2 := s.p1.1
  let y2 := s.p1.2
  let a : ℚ := if x1 = x2 then 1 else if y1 = y2 then 0 else 1 / (x2 - x1)
  let b : ℚ := if x1 = x2 then 0 else if y1 = y2 then 1 else -1 / (y2 - y1)
  let c : ℚ := if x1 = x2 then -x1 else if y1 = y2 then -y1
    else -(1 / (x2 - x1)) * x1 - (-1 / (y2 - y1)) * y1
  let xf := (b * (b * x0 - a * y0) - a * c) / (a^2 + b^2)
  let yf := (a * (-b * x0 + a * y0) - b * c) / (a^2 + b^2)
  if min x1 x2 ≤ xf ∧ xf ≤ max x1 x2 ∧ min y1 y2 ≤ yf ∧ yf ≤ max y1 y2 then
    (xf - x0)^2 + (yf - y0)^2 < smallDistance^2
  else
    min ((x1 - x0)^2 + (y1 - y0)^2) ((x2 - x0)^2 + (y2 - y0)^2) < smallDistance^2

/-- The nine grid cells a point is registered under (its own and the
surrounding eight), `int(coord // grid_size)` being the floored cell index. -/
def cells9 (p : QPt) : List (ℤ × ℤ) :=
  let xb := qfloor (p.1 / gridSize)
  let yb := qfloor (p.2 / gridSize)
  [(xb - 1, yb - 1), (xb - 1, yb), (xb - 1, yb + 1),
   (xb, yb - 1), (xb, yb), (xb, yb + 1),
   (xb + 1, yb - 1), (xb + 1, yb), (xb + 1, yb + 1)]

/-- `split_points`: the registered points found in the grid boxes the segment
passes through (iterated here in point-registration order). -/
def candidates (pts : List QPt) (s : FSegment) : List QPt :=
  pts.filter (fun p => (bresenham s gridSize).any (fun cell =>
    (cells9 p).contains cell))

/-- Splitting a segment at a point: two halves sharing the split point and
carrying the parent's conductor, boundary and mesh size
(`Segment(end_points, segment.conductor, segment.boundary,
segment.mesh_size)`). -/
def splitHalves (s : FSegment) (p : QPt) : FSegment × FSegment :=
  (⟨s.p0, p, s.conductor, s.boundary, s.mesh_size⟩,
   ⟨p, s.p1, s.conductor, s.boundary, s.mesh_size⟩)

/-- `Segment.__key__` equality (the ordered endpoint pair). -/
def sameKey (s t : FSegment) : Bool := s.p0 = t.p0 && s.p1 = t.p1

/-- The `Segment.__init__` merge branch run when a construction hits a live
key: conductor setter, boundary setter (either may raise), then
`mesh_size = min(mesh_size, new)`. -/
def mergeSeg (ex h : FSegment) : FSegment × Option String :=
  match ex.setConductor h.conductor with
  | (e1, some msg) => (e1, some msg)
  | (e1, none) =>
      match e1.setBoundary h.boundary with
      | (e2, some msg) => (e2, some msg)
      | (e2, none) => ({ e2 with mesh_size := min e2.mesh_size h.mesh_size }, none)

/-- Re-creating a half whose key is already live merges into the existing
instance, which `Segment.instances.pop` then removes and the loop re-queues;
a fresh key queues the half unchanged. -/
def requeueHalf (fin : List FSegment) (h : FSegment) :
    (List FSegment × FSegment) × Option String :=
  match fin.find? (fun t => sameKey t h) with
  | some ex =>
      ((fin.filter (fun t => !(sameKey t h)), (mergeSeg ex h).1), (mergeSeg ex h).2)
  | none => ((fin, h), none)

/-- `Segment.instances[segment] = ref(segment)`: a dict assignment keeps the
existing key object on a key hit, so the finalized list is unchanged then. -/
def insertFin (s : FSegment) (fin : List FSegment) : List FSegment :=
  if fin.any (fun t => sameKey t s) then fin else fin ++ [s]

structure RState where
  worklist : List FSegment
  final : List FSegment
deriving DecidableEq

/-- One iteration of the `while segments_to_process` loop: pop a segment,
scan the registered points in its grid boxes, split at the first point that is
not an endpoint and lies within `small_distance`, else finalize it. -/
def rstep (pts : List QPt) : RState → Except String RState
  | ⟨[], fin⟩ => Except.ok ⟨[], fin⟩
  | ⟨s :: rest, fin⟩ =>
      match (candidates pts s).find? (fun p =>
          (p ≠ s.p0 && p ≠ s.p1 && segDistLtSmall s p : Bool)) with
      | none => Except.ok ⟨rest, insertFin s fin⟩
      | some p =>
          match requeueHalf fin (splitHalves s p).1 with
          | ((_, _), some e) => Except.error e
          | ((fin1, q1), none) =>
              match requeueHalf fin1 (splitHalves s p).2 with
              | ((_, _), some e) => Except.error e
              | ((fin2, q2), none) => Except.ok ⟨q2 :: q1 :: rest, fin2⟩

/-- The whole pass, with explicit fuel; `none` means the fuel ran out with
work left (the source loop would still be running). -/
def rloop (pts : List QPt) : ℕ → RState → Option (Except String (List FSegment))
  | 0, st => if st.worklist.isEmpty then some (Except.ok st.final) else none
  | f + 1, st =>
      if st.worklist.isEmpty then some (Except.ok st.final)
      else
        match rstep pts st with
        | Except.error e => some (Except.error e)
        | Except.ok st2 => rloop pts f st2

theorem setConductor_endpoints (s : FSegment) (v : Option String) :
    ((s.setConductor v).1).p0 = s.p0 ∧ ((s.setConductor v).1).p1 = s.p1 := by
  unfold FSegment.setConductor
  split
  · exact ⟨rfl, rfl⟩
  · split
    · exact ⟨rfl, rfl⟩
    · split
      · exact ⟨rfl, rfl⟩
      · split
        · exact ⟨rfl, rfl⟩
        · exact ⟨rfl, rfl⟩

theorem setBoundary_endpoints (s : FSegment) (v : Option String) :
    ((s.setBoundary v).1).p0 = s.p0 ∧ ((s.setBoundary v).1).p1 = s.p1 := by
  unfold FSegment.setBoundary
  split
  · exact ⟨rfl, rfl⟩
  · split
    · exact ⟨rfl, rfl⟩
    · split
      · exact ⟨rfl, rfl⟩
      · split
        · exact ⟨rfl, rfl⟩
        · exact ⟨rfl, rfl⟩

theorem mergeSeg_endpoints (ex h : FSegment) :
    ((mergeSeg ex h).1).p0 = ex.p0 ∧ ((mergeSeg ex h).1).p1 = ex.p1 := by
  unfold mergeSeg
  split
  next e1 msg heq =>
      have pc := setConductor_endpoints ex h.conductor
      rw [heq] at pc
      exact pc
  next e1 heq =>
      have pc := setConductor_endpoints ex h.conductor
      rw [heq] at pc
      split
      next e2 msg heq2 =>
          have pb := setBoundary_endpoints e1 h.boundary
          rw [heq2] at pb
          exact ⟨pb.1.trans pc.1, pb.2.trans pc.2⟩
      next e2 heq2 =>
          have pb := setBoundary_endpoints e1 h.boundary
          rw [heq2] at pb
          exact ⟨pb.1.trans pc.1, pb.2.trans pc.2⟩

theorem requeueHalf_final_subset (fin : List FSegment) (h : FSegment) :
    ∀ t ∈ (requeueHalf fin h).1.1, t ∈ fin := by
  unfold requeueHalf
  rcases hf : fin.find? (fun t => sameKey t h) with _ | ex
  · exact fun t ht => ht
  · exact fun t ht => List.mem_of_mem_filter ht

theorem requeueHalf_queued_endpoints (fin : List FSegment) (h : FSegment) :
    ((requeueHalf fin h).1.2).p0 = h.p0 ∧ ((requeueHalf fin h).1.2).p1 = h.p1 := by
  unfold requeueHalf
  rcases hf : fin.find? (fun t => sameKey t h) with _ | ex
  · exact ⟨rfl, rfl⟩
  · have hkey := List.find?_some hf
    simp only [sameKey, Bool.and_eq_true, decide_eq_true_eq] at hkey
    have hm := mergeSeg_endpoints ex h
    exact ⟨hm.1.trans hkey.1, hm.2.trans hkey.2⟩

/-- The scan property a finalized segment has passed: no registered point in
its grid boxes, other than its endpoints, lies within `small_distance`. -/
def cleanScan (pts : List QPt) (s : FSegment) : Prop :=
  ∀ p ∈ candidates pts s, p = s.p0 ∨ p = s.p1 ∨ segDistLtSmall s p = false

theorem rstep_preserves_clean (pts : List QPt) (st st2 : RState)
    (hclean : ∀ s ∈ st.final, cleanScan pts s)
    (h : rstep pts st = Except.ok st2) :
    ∀ s ∈ st2.final, cleanScan pts s := by
  obtain ⟨wl, fin⟩ := st
  rcases wl with _ | ⟨s, rest⟩
  · rw [rstep] at h
    cases h
    exact hclean
  · rw [rstep] at h
    split at h
    next hf =>
      cases h
      intro t ht
      rw [insertFin] at ht
      by_cases hdup : (fin.any (fun u => sameKey u s)) = true
      · rw [if_pos hdup] at ht
        exact hclean t ht
      · rw [if_neg hdup] at ht
        rcases List.mem_append.mp ht with ht | ht
        · exact hclean t ht
        · have hts : t = s := by simpa using ht
          subst hts
          intro p hp
          have := List.find?_eq_none.mp hf p hp
          simpa [Decidable.imp_iff_not_or, or_assoc] using this
    next p hf =>
      split at h
      next e heq => exact Except.noConfusion h
      next fin1 q1 heq =>
        split at h
        next e heq2 => exact Except.noConfusion h
        next fin2 q2 heq2 =>
          cases h
          intro t ht
          have h1 : t ∈ fin1 := by
            have := requeueHalf_final_subset fin1 (splitHalves s p).2 t
            rw [heq2] at this
            exact this ht
          have h2 : t ∈ fin := by
            have := requeueHalf_final_subset fin (splitHalves s p).1 t
            rw [heq] at this
            exact this h1
          exact hclean t h2

theorem rloop_clean (pts : List QPt) :
    ∀ (fuel : ℕ) (st : RState) (final : List FSegment),
      (∀ s ∈ st.final, cleanScan pts s) →
      rloop pts fuel st = some (Except.ok final) →
      ∀ s ∈ final, cleanScan pts s := by
  intro fuel
  induction fuel with
  | zero =>
      intro st final hc hr
      rw [rloop] at hr
      by_cases he : st.worklist.isEmpty = true
      · rw [if_pos he] at hr
        have : st.final = final := by
          injection hr with hr
          injection hr
        exact this ▸ hc
      · rw [if_neg he] at hr
        cases hr
  | succ f ih =>
      intro st final hc hr
      rw [rloop] at hr
      by_cases he : st.worklist.isEmpty = true
      · rw [if_pos he] at hr
        have : st.final = final := by
          injection hr with hr
          injection hr
        exact this ▸ hc
      · rw [if_neg he] at hr
        rcases hs : rstep pts st with e | st2 <;> rw [hs] at hr
        · injection hr with hr
          cases hr
        · exact ih st2 final (rstep_preserves_clean pts st st2 hc hs) hr

/-- C3 (amended): whenever the pass terminates, no finalized segment has a
registered point, other than its own endpoints, within `small_distance` of it
among the points in the grid cells it crosses; and every split produces two
sub-segments sharing the split point as an endpoint and carrying the parent's
conductor, boundary and mesh size.  (Termination itself does not hold for
every finite input; see the counterexample.) -/
theorem C3_overlap_resolution (pts : List QPt) (segs : List FSegment)
    (fuel : ℕ) (final : List FSegment)
    (hrun : rloop pts fuel ⟨segs, []⟩ = some (Except.ok final)) :
    (∀ s ∈ final, ∀ p ∈ candidates pts s,
      p = s.p0 ∨ p = s.p1 ∨ segDistLtSmall s p = false) ∧
    (∀ (s : FSegment) (q : QPt),
      (splitHalves s q).1.p1 = q ∧ (splitHalves s q).2.p0 = q ∧
      (splitHalves s q).1.p0 = s.p0 ∧ (splitHalves s q).2.p1 = s.p1 ∧
      (splitHalves s q).1.conductor = s.conductor ∧
      (splitHalves s q).2.conductor = s.conductor ∧
      (splitHalves s q).1.boundary = s.boundary ∧
      (splitHalves s q).2.boundary = s.boundary ∧
      (splitHalves s q).1.mesh_size = s.mesh_size ∧
      (splitHalves s q).2.mesh_size = s.mesh_size) := by
  exact ⟨rloop_clean pts fuel _ final (by intro s hs; cases hs) hrun,
    fun s q => ⟨rfl, rfl, rfl, rfl, rfl, rfl, rfl, rfl, rfl, rfl⟩⟩

/-! ### C10: overlap resolution creates no new points -/

theorem rstep_preserves_endpoints (pts : List QPt) (st st2 : RState)
    (hinv : ∀ s ∈ st.worklist ++ st.final, s.p0 ∈ pts ∧ s.p1 ∈ pts)
    (h : rstep pts st = Except.ok st2) :
    ∀ s ∈ st2.worklist ++ st2.final, s.p0 ∈ pts ∧ s.p1 ∈ pts := by
  obtain ⟨wl, fin⟩ := st
  rcases wl with _ | ⟨s, rest⟩
  · rw [rstep] at h
    cases h
    exact hinv
  · rw [rstep] at h
    have hs : s.p0 ∈ pts ∧ s.p1 ∈ pts := hinv s (by simp)
    split at h
    next hf =>
      cases h
      intro t ht
      rcases List.mem_append.mp ht with ht | ht
      · exact hinv t (List.mem_append.mpr (Or.inl (List.mem_cons_of_mem s ht)))
      · rw [insertFin] at ht
        by_cases hdup : (fin.any (fun u => sameKey u s)) = true
        · rw [if_pos hdup] at ht
          exact hinv t (List.mem_append.mpr (Or.inr ht))
        · rw [if_neg hdup] at ht
          rcases List.mem_append.mp ht with ht | ht
          · exact hinv t (List.mem_append.mpr (Or.inr ht))
          · have hts : t = s := by simpa using ht
            exact hts ▸ hs
    next p hf =>
      have hp : p ∈ pts := List.mem_of_mem_filter (List.mem_of_find?_eq_some hf)
      split at h
      next e heq => exact Except.noConfusion h
      next fin1 q1 heq =>
        split at h
        next e heq2 => exact Except.noConfusion h
        next fin2 q2 heq2 =>
          cases h
          have hq1 := requeueHalf_queued_endpoints fin (splitHalves s p).1
          rw [heq] at hq1
          have hq2 := requeueHalf_queued_endpoints fin1 (splitHalves s p).2
          rw [heq2] at hq2
          intro t ht
          rcases List.mem_append.mp ht with ht | ht
          · rcases List.mem_cons.mp ht with rfl | ht
            · constructor
              · rw [hq2.1]
                exact hp
              · rw [hq2.2]
                exact hs.2
            · rcases List.mem_cons.mp ht with rfl | ht
              · constructor
                · rw [hq1.1]
                  exact hs.1
                · rw [hq1.2]
                  exact hp
              · exact hinv t (List.mem_append.mpr (Or.inl (List.mem_cons_of_mem s ht)))
          · have h1 : t ∈ fin1 := by
              have := requeueHalf_final_subset fin1 (splitHalves s p).2 t
              rw [heq2] at this
              exact this ht
            have h2 : t ∈ fin := by
              have := requeueHalf_final_subset fin (splitHalves s p).1 t
              rw [heq] at this
              exact this h1
            exact hinv t (List.mem_append.mpr (Or.inr h2))

theorem rloop_endpoints (pts : List QPt) :
    ∀ (fuel : ℕ) (st : RState) (final : List FSegment),
      (∀ s ∈ st.worklist ++ st.final, s.p0 ∈ pts ∧ s.p1 ∈ pts) →
      rloop pts fuel st = some (Except.ok final) →
      ∀ s ∈ final, s.p0 ∈ pts ∧ s.p1 ∈ pts := by
  intro fuel
  induction fuel with
  | zero =>
      intro st final hc hr
      rw [rloop] at hr
      by_cases he : st.worklist.isEmpty = true
      · rw [if_pos he] at hr
        have hfin : st.final = final := by
          injection hr with hr
          injection hr
        intro s hs
        exact hc s (List.mem_append.mpr (Or.inr (by rw [hfin]; exact hs)))
      · rw [if_neg he] at hr
        cases hr
  | succ f ih =>
      intro st final hc hr
      rw [rloop] at hr
      by_cases he : st.worklist.isEmpty = true
      · rw [if_pos he] at hr
        have hfin : st.final = final := by
          injection hr with hr
          injection hr
        intro s hs
        exact hc s (List.mem_append.mpr (Or.inr (by rw [hfin]; exact hs)))
      · rw [if_neg he] at hr
        rcases hs2 : rstep pts st with e | st2 <;> rw [hs2] at hr
        · injection hr with hr
          cases hr
        · exact ih st2 final (rstep_preserves_endpoints pts st st2 hc hs2) hr

/-- C10: overlap resolution creates no new points.  If every endpoint of
every input segment is a registered point, then after a terminating pass
every endpoint of every finalized segment is one of those registered points:
a split only reuses the registered point it found as the shared endpoint of
the two halves. -/
theorem C10_no_new_points (pts : List QPt) (segs : List FSegment)
    (fuel : ℕ) (final : List FSegment)
    (hseg : ∀ s ∈ segs, s.p0 ∈ pts ∧ s.p1 ∈ pts)
    (hrun : rloop pts fuel ⟨segs, []⟩ = some (Except.ok final)) :
    ∀ s ∈ final, s.p0 ∈ pts ∧ s.p1 ∈ pts := by
  refine rloop_endpoints pts fuel ⟨segs, []⟩ final ?_ hrun
  intro s hs
  exact hseg s (by simpa using hs)

/-- A bare segment between two points (no conductor, no boundary,
mesh size the `-1` sentinel). -/
def mkSeg (a b : QPt) : FSegment := ⟨a, b, none, none, -1⟩

/-- Registered points of a three-point run that terminates: the middle
point splits the long segment once and both halves then finalize. -/
def c10pts : List QPt := [(0, 0), (1/2, 0), (1, 0)]

deriving instance DecidableEq for Except

unseal Rat.add Rat.mul Rat.sub Rat.inv in
/-- Witness for C10: the three-point run terminates in three iterations and
both finalized halves have registered endpoints. -/
theorem C10_no_new_points_witness :
    ((mkSeg ((1:ℚ)/2, 0) (1, 0)).p0 ∈ c10pts ∧
      (mkSeg ((1:ℚ)/2, 0) (1, 0)).p1 ∈ c10pts) ∧
    ((mkSeg (0, 0) ((1:ℚ)/2, 0)).p0 ∈ c10pts ∧
      (mkSeg (0, 0) ((1:ℚ)/2, 0)).p1 ∈ c10pts) := by
  have h := C10_no_new_points c10pts [mkSeg (0, 0) (1, 0)] 3
    [mkSeg (1/2, 0) (1, 0), mkSeg (0, 0) (1/2, 0)] (by decide) (by decide)
  exact ⟨h _ (List.mem_cons_self _ _),
    h _ (List.mem_cons_of_mem _ (List.mem_cons_self _ _))⟩

unseal Rat.add Rat.mul Rat.sub Rat.inv in
/-- Witness for C3: a run that does terminate (the same three-point layout),
with the split-preservation facts instantiated at its split. -/
theorem C3_overlap_resolution_witness :
    (splitHalves (mkSeg (0, 0) (1, 0)) ((1:ℚ)/2, 0)).1.p1 = ((1:ℚ)/2, 0) ∧
    (splitHalves (mkSeg (0, 0) (1, 0)) ((1:ℚ)/2, 0)).2.p0 = ((1:ℚ)/2, 0) ∧
    (splitHalves (mkSeg (0, 0) (1, 0)) ((1:ℚ)/2, 0)).1.conductor = none := by
  have h := C3_overlap_resolution c10pts [mkSeg (0, 0) (1, 0)] 3
    [mkSeg (1/2, 0) (1, 0), mkSeg (0, 0) (1/2, 0)] (by decide)
  have h2 := h.2 (mkSeg (0, 0) (1, 0)) ((1:ℚ)/2, 0)
  exact ⟨h2.1, h2.2.1, h2.2.2.2.2.1⟩

/-! ### C3: the split loop does not terminate on all finite inputs.

With the collinear points A = (0,0), B = (10001/10000, 0) and
P = (4997/5000, 0), segment AB is split at P; the half PB finalizes
(its own length is 7/10000 < 1e-3, and A is far), but the half AP is then
split at B (B lies 7/10000 from its endpoint P), re-creating key (P,B),
which merges with and removes the finalized PB — a period-four cycle. -/

def c3A : QPt := (0, 0)

def c3B : QPt := (10001/10000, 0)

def c3P : QPt := (4997/5000, 0)

def c3pts : List QPt := [c3A, c3B, c3P]

def c3S0 : RState := ⟨[mkSeg c3A c3B], []⟩

def c3T1 : RState := ⟨[mkSeg c3P c3B, mkSeg c3A c3P], []⟩

def c3T2 : RState := ⟨[mkSeg c3A c3P], [mkSeg c3P c3B]⟩

def c3S4 : RState := ⟨[mkSeg c3B c3P, mkSeg c3A c3B], [mkSeg c3P c3B]⟩

def c3S1 : RState := ⟨[mkSeg c3A c3B], [mkSeg c3P c3B, mkSeg c3B c3P]⟩

def c3S2 : RState := ⟨[mkSeg c3P c3B, mkSeg c3A c3P], [mkSeg c3B c3P]⟩

def c3S3 : RState := ⟨[mkSeg c3A c3P], [mkSeg c3B c3P, mkSeg c3P c3B]⟩

/-- The pass never finishes from this state: every fuel budget runs out with
work still queued (so the source loop, which has no budget, runs forever). -/
def loopRunsForever (pts : List QPt) (st : RState) : Prop :=
  ∀ fuel : ℕ, rloop pts fuel st = none

unseal Rat.add Rat.mul Rat.sub Rat.inv in
theorem c3_step0 : rstep c3pts c3S0 = Except.ok c3T1 := by decide

unseal Rat.add Rat.mul Rat.sub Rat.inv in
theorem c3_step1 : rstep c3pts c3T1 = Except.ok c3T2 := by decide

unseal Rat.add Rat.mul Rat.sub Rat.inv in
theorem c3_step2 : rstep c3pts c3T2 = Except.ok c3S4 := by decide

unseal Rat.add Rat.mul Rat.sub Rat.inv in
theorem c3_step3 : rstep c3pts c3S4 = Except.ok c3S1 := by decide

unseal Rat.add Rat.mul Rat.sub Rat.inv in
theorem c3_step4 : rstep c3pts c3S1 = Except.ok c3S2 := by decide

unseal Rat.add Rat.mul Rat.sub Rat.inv in
theorem c3_step5 : rstep c3pts c3S2 = Except.ok c3S3 := by decide

unseal Rat.add Rat.mul Rat.sub Rat.inv in
theorem c3_step6 : rstep c3pts c3S3 = Except.ok c3S4 := by decide

theorem c3_cycle : ∀ f : ℕ,
    rloop c3pts f c3S0 = none ∧ rloop c3pts f c3T1 = none ∧
    rloop c3pts f c3T2 = none ∧ rloop c3pts f c3S4 = none ∧
    rloop c3pts f c3S1 = none ∧ rloop c3pts f c3S2 = none ∧
    rloop c3pts f c3S3 = none := by
  intro f
  induction f with
  | zero => exact ⟨rfl, rfl, rfl, rfl, rfl, rfl, rfl⟩
  | succ f ih =>
      refine ⟨?_, ?_, ?_, ?_, ?_, ?_, ?_⟩
      · rw [rloop, if_neg (by decide), c3_step0]
        exact ih.2.1
      · rw [rloop, if_neg (by decide), c3_step1]
        exact ih.2.2.1
      · rw [rloop, if_neg (by decide), c3_step2]
        exact ih.2.2.2.1
      · rw [rloop, if_neg (by decide), c3_step3]
        exact ih.2.2.2.2.1
      · rw [rloop, if_neg (by decide), c3_step4]
        exact ih.2.2.2.2.2.1
      · rw [rloop, if_neg (by decide), c3_step5]
        exact ih.2.2.2.2.2.2
      · rw [rloop, if_neg (by decide), c3_step6]
        exact ih.2.2.2.1

/-- C3 counterexample: over the collinear registered points (0,0),
(10001/10000,0) and (4997/5000,0) the resolve loop run on the single segment
from (0,0) to (10001/10000,0) enters a period-four split/merge cycle: no
amount of fuel makes it terminate, refuting "the split loop terminates for
every finite input set of points and segments." -/
theorem C3_split_loop_nonterminating :
    loopRunsForever c3pts c3S0 :=
  fun fuel => (c3_cycle fuel).1

end KicadToFemm
